import Mathlib

/-!
Verification development for the `secret-plan` vault engine.

Conventions of the shallow embedding:
* Rust strings and byte buffers are both modelled as `List Nat` of their
  byte values (all text relevant to the claims is ASCII, where UTF-8 bytes
  and code points coincide).
* External library primitives (the `argon2` KDF, the `aes-gcm` AEAD cipher,
  `serde_json` serialization of plain data structures) are modelled as ideal,
  injective, executable functionalities; everything belonging to the
  repository itself (vault manager logic, SQL row/filter semantics, container
  formats, the `base64` wire format) is translated from the source.
* Stateful operations take the pre-state and any entropy/clock inputs
  (`OsRng` nonces and salts, `Uuid::new_v4`, `Utc::now`) as explicit
  arguments and return `(Except AppError result, post-state)`; a returned
  error carries the rolled-back (SQL transaction) state.
-/

namespace SecretPlan

/-! ## Self-delimiting integer and sequence encodings

Used to model byte-level output of external primitives: a natural number is
written as its little-endian base-255 digits followed by the terminator byte
255, so arbitrary naturals become unambiguous byte (< 256) strings. -/

/-- Little-endian base-255 digits, fuelled so the recursion is structural
(`digits255` supplies fuel `n`, always sufficient). -/
def digits255F : Nat → Nat → List Nat
  | 0, _ => []
  | fuel + 1, n => if n = 0 then [] else (n % 255) :: digits255F fuel (n / 255)

/-- Little-endian base-255 digits of `n` (empty for 0). -/
def digits255 (n : Nat) : List Nat := digits255F n n

/-- Value of little-endian base-255 digits. -/
def val255 : List Nat → Nat
  | [] => 0
  | d :: ds => d + 255 * val255 ds

theorem val255_digits255F : ∀ (fuel n : Nat), n ≤ fuel → val255 (digits255F fuel n) = n
  | 0, n, h => by
    simp only [digits255F, val255]
    omega
  | fuel + 1, n, h => by
    by_cases h0 : n = 0
    · simp [digits255F, h0, val255]
    · have hrec := val255_digits255F fuel (n / 255) (by omega)
      simp only [digits255F, h0, ite_false, val255, hrec]
      omega

theorem val255_digits255 (n : Nat) : val255 (digits255 n) = n :=
  val255_digits255F n n (Nat.le_refl n)

theorem digits255F_lt : ∀ (fuel n : Nat), ∀ d ∈ digits255F fuel n, d < 255
  | 0, _ => by simp [digits255F]
  | fuel + 1, n => by
    by_cases h0 : n = 0
    · simp [digits255F, h0]
    · simp only [digits255F, h0, ite_false, List.mem_cons]
      intro d hd
      rcases hd with hd | hd
      · omega
      · exact digits255F_lt fuel (n / 255) d hd

theorem digits255_lt (n : Nat) : ∀ d ∈ digits255 n, d < 255 :=
  digits255F_lt n n

/-- A natural number as a self-delimiting byte string: base-255 digits, then
the terminator byte 255. -/
def natB (n : Nat) : List Nat := digits255 n ++ [255]

theorem natB_lt_256 (n : Nat) : ∀ b ∈ natB n, b < 256 := by
  intro b hb
  rcases List.mem_append.mp hb with h | h
  · exact Nat.lt_trans (digits255_lt n b h) (by omega)
  · simp at h; omega

/-- Split a byte string at the first 255 terminator. -/
def splitTerm : List Nat → Option (List Nat × List Nat)
  | [] => none
  | x :: xs =>
    if x = 255 then some ([], xs)
    else (splitTerm xs).map (fun p => (x :: p.1, p.2))

theorem splitTerm_append (ds rest : List Nat) (h : ∀ d ∈ ds, d < 255) :
    splitTerm (ds ++ 255 :: rest) = some (ds, rest) := by
  induction ds with
  | nil => simp [splitTerm]
  | cons d ds ih =>
    have hd : d < 255 := h d (by simp)
    simp only [List.cons_append, splitTerm, Nat.ne_of_lt hd, ite_false]
    rw [List.append_eq, ih (fun x hx => h x (by simp [hx]))]
    rfl

/-- Parse a `natB`-encoded natural, returning it and the remaining bytes. -/
def parseNatB (l : List Nat) : Option (Nat × List Nat) :=
  (splitTerm l).map (fun p => (val255 p.1, p.2))

theorem parseNatB_natB (n : Nat) (rest : List Nat) :
    parseNatB (natB n ++ rest) = some (n, rest) := by
  unfold parseNatB natB
  rw [List.append_assoc, List.cons_append, List.nil_append,
    splitTerm_append _ _ (digits255_lt n)]
  simp [val255_digits255]

/-- Encode a list of naturals: element count, then each element, all
self-delimiting. -/
def encSeq (l : List Nat) : List Nat :=
  natB l.length ++ (l.map natB).flatten

theorem encSeq_lt_256 (l : List Nat) : ∀ b ∈ encSeq l, b < 256 := by
  intro b hb
  rcases List.mem_append.mp hb with h | h
  · exact natB_lt_256 _ b h
  · rcases List.mem_flatten.mp h with ⟨piece, hpiece, hbp⟩
    rcases List.mem_map.mp hpiece with ⟨n, _, rfl⟩
    exact natB_lt_256 n b hbp

/-- Parse `count` `natB`-encoded naturals. -/
def parseItems : Nat → List Nat → Option (List Nat × List Nat)
  | 0, l => some ([], l)
  | n + 1, l =>
    (parseNatB l).bind fun p =>
      (parseItems n p.2).map fun q => (p.1 :: q.1, q.2)

theorem parseItems_append (l rest : List Nat) :
    parseItems l.length ((l.map natB).flatten ++ rest) = some (l, rest) := by
  induction l with
  | nil => simp [parseItems]
  | cons x xs ih =>
    simp [parseItems, List.append_assoc, parseNatB_natB, ih]

/-- Parse an `encSeq`-encoded list. -/
def parseSeq (l : List Nat) : Option (List Nat × List Nat) :=
  (parseNatB l).bind fun p => parseItems p.1 p.2

theorem parseSeq_encSeq (l rest : List Nat) :
    parseSeq (encSeq l ++ rest) = some (l, rest) := by
  unfold parseSeq encSeq
  rw [List.append_assoc, parseNatB_natB]
  simp [parseItems_append]

/-! ## Base64 (RFC 4648, standard alphabet with padding)

Embeds the `base64` crate's `STANDARD` engine on byte values: `b64Encode`
turns a byte string into the ASCII bytes of its base64 text, `b64Decode`
inverts it (rejecting non-canonical trailing bits, as the crate does). -/

/-- The standard base64 alphabet: 6-bit index to ASCII byte. -/
def b64Byte (i : Nat) : Nat :=
  if i < 26 then 65 + i
  else if i < 52 then 97 + (i - 26)
  else if i < 62 then 48 + (i - 52)
  else if i = 62 then 43
  else 47

/-- Inverse of the base64 alphabet: ASCII byte to 6-bit index. -/
def b64Val (b : Nat) : Option Nat :=
  if 65 ≤ b ∧ b ≤ 90 then some (b - 65)
  else if 97 ≤ b ∧ b ≤ 122 then some (b - 97 + 26)
  else if 48 ≤ b ∧ b ≤ 57 then some (b - 48 + 52)
  else if b = 43 then some 62
  else if b = 47 then some 63
  else none

theorem b64Val_b64Byte : ∀ i < 64, b64Val (b64Byte i) = some i := by decide

theorem b64Byte_facts : ∀ i < 64, b64Byte i ≠ 34 ∧ b64Byte i ≠ 61 ∧ b64Byte i < 256 := by
  decide

theorem b64Byte_facts_all (i : Nat) :
    b64Byte i ≠ 34 ∧ b64Byte i ≠ 61 ∧ b64Byte i < 256 := by
  by_cases h : i < 64
  · exact b64Byte_facts i h
  · unfold b64Byte
    have h1 : ¬i < 26 := by omega
    have h2 : ¬i < 52 := by omega
    have h3 : ¬i < 62 := by omega
    have h4 : ¬i = 62 := by omega
    simp [h1, h2, h3, h4]

/-- Base64 encoding of a byte string (ASCII bytes of the text form). -/
def b64Encode : List Nat → List Nat
  | a :: b :: c :: rest =>
    b64Byte (a / 4) :: b64Byte ((a % 4) * 16 + b / 16) ::
      b64Byte ((b % 16) * 4 + c / 64) :: b64Byte (c % 64) :: b64Encode rest
  | [a, b] => [b64Byte (a / 4), b64Byte ((a % 4) * 16 + b / 16), b64Byte ((b % 16) * 4), 61]
  | [a] => [b64Byte (a / 4), b64Byte ((a % 4) * 16), 61, 61]
  | [] => []

/-- Base64 decoding; strict about padding and canonical trailing bits. -/
def b64Decode : List Nat → Option (List Nat)
  | [] => some []
  | c1 :: c2 :: c3 :: c4 :: rest =>
    (b64Val c1).bind fun i1 =>
      (b64Val c2).bind fun i2 =>
        if c3 = 61 then
          if c4 = 61 ∧ rest = [] ∧ i2 % 16 = 0 then some [i1 * 4 + i2 / 16] else none
        else
          (b64Val c3).bind fun i3 =>
            if c4 = 61 then
              if rest = [] ∧ i3 % 4 = 0 then
                some [i1 * 4 + i2 / 16, (i2 % 16) * 16 + i3 / 4]
              else none
            else
              (b64Val c4).bind fun i4 =>
                (b64Decode rest).map fun tail =>
                  (i1 * 4 + i2 / 16) :: ((i2 % 16) * 16 + i3 / 4) :: ((i3 % 4) * 64 + i4) :: tail
  | _ => none

theorem b64Decode_b64Encode :
    ∀ l : List Nat, (∀ b ∈ l, b < 256) → b64Decode (b64Encode l) = some l
  | [], _ => rfl
  | [a], h => by
    have ha : a < 256 := h a (by simp)
    have h1 := b64Val_b64Byte (a / 4) (by omega)
    have h2 := b64Val_b64Byte ((a % 4) * 16) (by omega)
    have h3 := (b64Byte_facts ((a % 4) * 16) (by omega)).2.1
    have hmod : a % 4 * 16 % 16 = 0 := by omega
    simp [b64Encode, b64Decode, h1, h2, h3, hmod]
    omega
  | [a, b], h => by
    have ha : a < 256 := h a (by simp)
    have hb : b < 256 := h b (by simp)
    have h1 := b64Val_b64Byte (a / 4) (by omega)
    have h2 := b64Val_b64Byte ((a % 4) * 16 + b / 16) (by omega)
    have h3 := b64Val_b64Byte ((b % 16) * 4) (by omega)
    have h3ne := (b64Byte_facts ((b % 16) * 4) (by omega)).2.1
    have hmod : b % 16 * 4 % 4 = 0 := by omega
    have hv1 : a / 4 * 4 + (a % 4 * 16 + b / 16) / 16 = a := by omega
    simp [b64Encode, b64Decode, h1, h2, h3, h3ne, hmod, hv1]
    omega
  | a :: b :: c :: d :: rest, h => by
    have ha : a < 256 := h a (by simp)
    have hb : b < 256 := h b (by simp)
    have hc : c < 256 := h c (by simp)
    have h1 := b64Val_b64Byte (a / 4) (by omega)
    have h2 := b64Val_b64Byte ((a % 4) * 16 + b / 16) (by omega)
    have h3 := b64Val_b64Byte ((b % 16) * 4 + c / 64) (by omega)
    have h4 := b64Val_b64Byte (c % 64) (by omega)
    have h3ne := (b64Byte_facts ((b % 16) * 4 + c / 64) (by omega)).2.1
    have h4ne := (b64Byte_facts (c % 64) (by omega)).2.1
    have ih := b64Decode_b64Encode (d :: rest)
      (fun x hx => h x (by simp [List.mem_cons] at hx ⊢; tauto))
    simp [b64Encode, b64Decode, h1, h2, h3, h4, h3ne, h4ne, ih]
    omega
  | [a, b, c], h => by
    have ha : a < 256 := h a (by simp)
    have hb : b < 256 := h b (by simp)
    have hc : c < 256 := h c (by simp)
    have h1 := b64Val_b64Byte (a / 4) (by omega)
    have h2 := b64Val_b64Byte ((a % 4) * 16 + b / 16) (by omega)
    have h3 := b64Val_b64Byte ((b % 16) * 4 + c / 64) (by omega)
    have h4 := b64Val_b64Byte (c % 64) (by omega)
    have h3ne := (b64Byte_facts ((b % 16) * 4 + c / 64) (by omega)).2.1
    have h4ne := (b64Byte_facts (c % 64) (by omega)).2.1
    have ih : b64Decode (b64Encode ([] : List Nat)) = some [] := rfl
    simp [b64Encode, b64Decode, h1, h2, h3, h4, h3ne, h4ne, ih]
    omega

theorem b64Encode_facts :
    ∀ l : List Nat, ∀ x ∈ b64Encode l, x ≠ 34 ∧ x < 256
  | [] => by simp [b64Encode]
  | [a] => by
    intro x hx
    simp only [b64Encode, List.mem_cons, List.not_mem_nil, or_false] at hx
    rcases hx with rfl | rfl | rfl | rfl
    · exact ⟨(b64Byte_facts_all _).1, (b64Byte_facts_all _).2.2⟩
    · exact ⟨(b64Byte_facts_all _).1, (b64Byte_facts_all _).2.2⟩
    · omega
    · omega
  | [a, b] => by
    intro x hx
    simp only [b64Encode, List.mem_cons, List.not_mem_nil, or_false] at hx
    rcases hx with rfl | rfl | rfl | rfl
    · exact ⟨(b64Byte_facts_all _).1, (b64Byte_facts_all _).2.2⟩
    · exact ⟨(b64Byte_facts_all _).1, (b64Byte_facts_all _).2.2⟩
    · exact ⟨(b64Byte_facts_all _).1, (b64Byte_facts_all _).2.2⟩
    · omega
  | a :: b :: c :: rest => by
    intro x hx
    simp only [b64Encode, List.mem_cons] at hx
    rcases hx with rfl | rfl | rfl | rfl | hx
    · exact ⟨(b64Byte_facts_all _).1, (b64Byte_facts_all _).2.2⟩
    · exact ⟨(b64Byte_facts_all _).1, (b64Byte_facts_all _).2.2⟩
    · exact ⟨(b64Byte_facts_all _).1, (b64Byte_facts_all _).2.2⟩
    · exact ⟨(b64Byte_facts_all _).1, (b64Byte_facts_all _).2.2⟩
    · exact b64Encode_facts rest x hx

/-! ## Data model (`models.rs`) and error taxonomy (`error.rs`) -/

/-- `models.rs`: tri-state breach status. -/
inductive BreachState where
  | Unknown
  | Safe
  | Compromised
  deriving DecidableEq, Repr

/-- The `as i32` integer stored in the `breach_state` column. -/
def BreachState.toInt : BreachState → Nat
  | .Unknown => 0
  | .Safe => 1
  | .Compromised => 2

/-- The `match` used when reading the `breach_state` column back
(`sqlite_repo.rs` and `vault.rs`: 1 => Safe, 2 => Compromised, _ => Unknown). -/
def BreachState.ofInt (n : Nat) : BreachState :=
  if n = 1 then .Safe else if n = 2 then .Compromised else .Unknown

/-- `models.rs`: application settings. Rust `u32` fields are modelled as `Nat`;
`sync_config`'s `HashMap<String, String>` is modelled as an association list. -/
structure AppSettings where
  argon2_memory_kb : Nat
  argon2_iterations : Nat
  argon2_parallelism : Nat
  use_biometrics : Bool
  auto_lock_timeout : Nat
  enable_sync : Bool
  sync_config : Option (List (List Nat × List Nat))
  deriving DecidableEq, Repr

/-- `impl Default for AppSettings`. -/
def AppSettings.default : AppSettings :=
  { argon2_memory_kb := 65536
    argon2_iterations := 3
    argon2_parallelism := 4
    use_biometrics := true
    auto_lock_timeout := 5
    enable_sync := false
    sync_config := none }

/-- `models.rs`: plaintext secret payload. `HashMap` as association list. -/
structure Secret where
  password : List Nat
  notes : Option (List Nat)
  totp : Option (List Nat)
  custom_fields : List (List Nat × List Nat)
  deriving DecidableEq, Repr

/-- `models.rs`: credential metadata. Timestamps (`DateTime<Utc>`) are
modelled by their unix seconds. -/
structure Credential where
  uuid : List Nat
  site : List Nat
  username : List Nat
  secret_enc : List Nat
  tags : List (List Nat)
  created_at : Nat
  updated_at : Nat
  expires_at : Option Nat
  strength : Nat
  breach_state : BreachState
  deriving DecidableEq, Repr

/-- `Credential::new` (`models.rs`): fresh uuid and clock are explicit inputs
standing for `Uuid::new_v4()` and `Utc::now()`. -/
def Credential.new (site username secret_enc uuid : List Nat) (now : Nat) : Credential :=
  { uuid := uuid
    site := site
    username := username
    secret_enc := secret_enc
    tags := []
    created_at := now
    updated_at := now
    expires_at := none
    strength := 0
    breach_state := .Unknown }

/-- `models.rs`: audit log entry. The store-assigned rowid is the entry's
position in the log list; `timestamp` is unix seconds. -/
structure AuditLogEntry where
  timestamp : Nat
  action : List Nat
  item_uuid : Option (List Nat)
  deriving DecidableEq, Repr

/-- `error.rs`: crypto error kinds (message payloads dropped). -/
inductive CryptoError where
  | KeyDerivation
  | Encryption
  | Decryption
  | InvalidFormat
  | Random
  deriving DecidableEq, Repr

/-- `error.rs`: application errors (message payloads dropped except the
`NotFound` uuid). -/
inductive AppError where
  | Crypto (e : CryptoError)
  | Database
  | Serialization
  | Io
  | VaultLocked
  | AuthFailed
  | NotFound (item : List Nat)
  | Sync
  | Other
  deriving DecidableEq, Repr

/-! ## Ideal Argon2 and AES-256-GCM primitives

The `argon2` and `aes-gcm` crates are external dependencies of the
repository. They are modelled as ideal functionalities: the KDF output is an
opaque token recording exactly the inputs (password bytes, salt, cost
parameters), which makes it executable and collision-free, the idealization
of a secure KDF; the AEAD cipher produces a byte string from which
decryption recovers the plaintext exactly when key, nonce and associated
data all match, the idealization of authenticated encryption. -/

/-- Ideal Argon2id output for a password, salt and cost parameters: the
model of `Argon2::hash_password_into` (and of the digest computed by
`Argon2::hash_password`, which uses the same inputs). -/
structure Argon2Key where
  password : List Nat
  salt : List Nat
  memKb : Nat
  iters : Nat
  par : Nat
  deriving DecidableEq, Repr

/-- Model of the PHC string produced by `Argon2::hash_password`: a
self-describing record of the cost parameters, the salt, and the digest.
(The textual `$argon2id$...` rendering of the external `password-hash`
crate is not claim-relevant and is left abstract.) -/
structure PhcHash where
  memKb : Nat
  iters : Nat
  par : Nat
  salt : List Nat
  digest : Argon2Key
  deriving DecidableEq, Repr

/-- Ideal AEAD encryption (`aes-gcm` crate): the ciphertext is an
unambiguous byte encoding of key, nonce, associated data and plaintext, so
that decryption can check all three bindings — the executable idealization
of AES-256-GCM's confidentiality-plus-authenticity contract. -/
def aesGcmEncrypt (key : Argon2Key) (nonce aad pt : List Nat) : List Nat :=
  encSeq key.password ++ encSeq key.salt ++ natB key.memKb ++ natB key.iters ++
    natB key.par ++ encSeq nonce ++ encSeq aad ++ encSeq pt

/-- Ideal AEAD decryption: succeeds (authentication-tag check passes) exactly
when key, nonce and associated data match those used at encryption time. -/
def aesGcmDecrypt (key : Argon2Key) (nonce aad ct : List Nat) : Option (List Nat) :=
  (parseSeq ct).bind fun p1 =>
    (parseSeq p1.2).bind fun p2 =>
      (parseNatB p2.2).bind fun p3 =>
        (parseNatB p3.2).bind fun p4 =>
          (parseNatB p4.2).bind fun p5 =>
            (parseSeq p5.2).bind fun p6 =>
              (parseSeq p6.2).bind fun p7 =>
                (parseSeq p7.2).bind fun p8 =>
                  if p8.2 = [] ∧
                      (⟨p1.1, p2.1, p3.1, p4.1, p5.1⟩ : Argon2Key) = key ∧
                      p6.1 = nonce ∧ p7.1 = aad then
                    some p8.1
                  else none

theorem aesGcmDecrypt_aesGcmEncrypt (key : Argon2Key) (nonce aad pt : List Nat) :
    aesGcmDecrypt key nonce aad (aesGcmEncrypt key nonce aad pt) = some pt := by
  have hlast := parseSeq_encSeq pt []
  rw [List.append_nil] at hlast
  simp [aesGcmEncrypt, aesGcmDecrypt, List.append_assoc, parseSeq_encSeq, parseNatB_natB, hlast]

theorem aesGcmEncrypt_lt_256 (key : Argon2Key) (nonce aad pt : List Nat) :
    ∀ b ∈ aesGcmEncrypt key nonce aad pt, b < 256 := by
  intro b hb
  simp only [aesGcmEncrypt, List.mem_append] at hb
  rcases hb with ((((((h | h) | h) | h) | h) | h) | h) | h
  · exact encSeq_lt_256 _ b h
  · exact encSeq_lt_256 _ b h
  · exact natB_lt_256 _ b h
  · exact natB_lt_256 _ b h
  · exact natB_lt_256 _ b h
  · exact encSeq_lt_256 _ b h
  · exact encSeq_lt_256 _ b h
  · exact encSeq_lt_256 _ b h

/-! ## The `EncryptedContainer` JSON wire format (`crypto.rs`)

`serde_json::to_string(&EncryptedContainer { nonce, ciphertext })` produces
exactly the bytes of the text
`\x7b"nonce":"<b64>","ciphertext":"<b64>"\x7d` (fields in declaration
order, no whitespace); the parser below accepts that canonical shape, which
is the only shape the round-trip claims evaluate `serde_json::from_str` on. -/

/-- Bytes of the text before the nonce value: `\x7b"nonce":"`. -/
def containerL1 : List Nat := [123, 34, 110, 111, 110, 99, 101, 34, 58, 34]

/-- Bytes of the text between the two values: `","ciphertext":"` without its
leading quote (consumed as the nonce value's terminator): `,"ciphertext":"`. -/
def containerL2 : List Nat := [44, 34, 99, 105, 112, 104, 101, 114, 116, 101, 120, 116, 34, 58, 34]

/-- The serialized container: base64 nonce and ciphertext texts spliced into
the JSON template (34 = `"` and 125 = the closing brace). -/
def containerJson (nonceB64 ctB64 : List Nat) : List Nat :=
  containerL1 ++ nonceB64 ++ 34 :: containerL2 ++ ctB64 ++ [34, 125]

/-- Strip an expected literal byte sequence. -/
def stripLit : List Nat → List Nat → Option (List Nat)
  | [], l => some l
  | p :: ps, x :: xs => if x = p then stripLit ps xs else none
  | _ :: _, [] => none

theorem stripLit_append (p rest : List Nat) : stripLit p (p ++ rest) = some rest := by
  induction p with
  | nil => rfl
  | cons x xs ih => simp [stripLit, ih]

/-- Take bytes up to the next `"` (byte 34), consuming it. -/
def takeTo34 : List Nat → Option (List Nat × List Nat)
  | [] => none
  | x :: xs =>
    if x = 34 then some ([], xs)
    else (takeTo34 xs).map fun p => (x :: p.1, p.2)

theorem takeTo34_append (l rest : List Nat) (h : ∀ x ∈ l, x ≠ 34) :
    takeTo34 (l ++ 34 :: rest) = some (l, rest) := by
  induction l with
  | nil => simp [takeTo34]
  | cons x xs ih =>
    have hx : x ≠ 34 := h x (by simp)
    simp only [List.cons_append, takeTo34, hx, ite_false]
    rw [List.append_eq, ih (fun y hy => h y (by simp [hy]))]
    rfl

/-- Canonical-form parse of the container JSON, the model of
`serde_json::from_str::<EncryptedContainer>` on the repository's own output. -/
def parseContainer (l : List Nat) : Option (List Nat × List Nat) :=
  (stripLit containerL1 l).bind fun r1 =>
    (takeTo34 r1).bind fun p =>
      (stripLit containerL2 p.2).bind fun r2 =>
        (takeTo34 r2).bind fun q =>
          if q.2 = [125] then some (p.1, q.1) else none

theorem parseContainer_containerJson (n c : List Nat)
    (hn : ∀ x ∈ n, x ≠ 34) (hc : ∀ x ∈ c, x ≠ 34) :
    parseContainer (containerJson n c) = some (n, c) := by
  unfold parseContainer containerJson
  simp only [List.cons_append, List.append_assoc]
  rw [stripLit_append]
  simp only [Option.some_bind]
  rw [takeTo34_append n _ hn]
  simp only [Option.some_bind]
  rw [stripLit_append]
  simp only [Option.some_bind]
  have h2 : c ++ [34, 125] = c ++ 34 :: [125] := rfl
  rw [h2, takeTo34_append c _ hc]
  simp

/-! ## `CryptoService` (`crypto.rs`) -/

/-- `crypto.rs`: the cryptographic service state. The optional
`SettingsRepository` handle is modelled by `settings_repo`: `none` when no
repository is attached, `some s` when one is attached and currently stores
master-password hash `s`. -/
structure CryptoService where
  master_key : Option Argon2Key
  master_password_hash : Option PhcHash
  settings : AppSettings
  settings_repo : Option (Option PhcHash)
  deriving DecidableEq, Repr

namespace CryptoService

/-- `CryptoService::new`: locked state, no stored hash, no repository. -/
def new (settings : AppSettings) : CryptoService :=
  { master_key := none
    master_password_hash := none
    settings := settings
    settings_repo := none }

/-- `Params::new(memory, iterations, parallelism, Some(32))` plus the
Argon2id well-formedness requirements checked by the `argon2` crate
(minimum memory 8 KiB and at least 8 blocks per lane, at least one
iteration, parallelism between 1 and 2^24 - 1). -/
def validParams (s : AppSettings) : Bool :=
  8 ≤ s.argon2_memory_kb && 1 ≤ s.argon2_iterations &&
    (1 ≤ s.argon2_parallelism && s.argon2_parallelism ≤ 16777215) &&
    8 * s.argon2_parallelism ≤ s.argon2_memory_kb

/-- `get_argon2_instance`: the configured cost parameters, or
`KeyDerivationFailed` when parameter construction fails. -/
def get_argon2_instance (c : CryptoService) : Except AppError (Nat × Nat × Nat) :=
  if validParams c.settings then
    .ok (c.settings.argon2_memory_kb, c.settings.argon2_iterations, c.settings.argon2_parallelism)
  else .error (.Crypto .KeyDerivation)

/-- `derive_key_and_hash`: derive a key and a self-describing verification
hash from the master password under a fresh salt (`SaltString::generate`,
passed explicitly). Both the raw key and the hash digest are the ideal
Argon2 output over the same password, salt and parameters. -/
def derive_key_and_hash (c : CryptoService) (master_password salt : List Nat) :
    Except AppError (Argon2Key × PhcHash) :=
  (c.get_argon2_instance).bind fun p =>
    let key : Argon2Key := ⟨master_password, salt, p.1, p.2.1, p.2.2⟩
    .ok (key, ⟨p.1, p.2.1, p.2.2, salt, key⟩)

/-- `verify_password_and_derive_key`: verify the password against the stored
hash (the `argon2` crate recomputes the digest with the hash's embedded salt
and parameters and compares), then on success re-derive the raw key with the
embedded salt and the instance's current parameters. The structured
`PhcHash` always parses and always carries its salt, so the
`Invalid stored hash format` / `Missing salt` failure arms of the source are
unreachable in the model. -/
def verify_password_and_derive_key (c : CryptoService) (master_password : List Nat)
    (stored_hash : PhcHash) : Except AppError Argon2Key :=
  (c.get_argon2_instance).bind fun p =>
    if (⟨master_password, stored_hash.salt, stored_hash.memKb, stored_hash.iters,
        stored_hash.par⟩ : Argon2Key) = stored_hash.digest then
      .ok ⟨master_password, stored_hash.salt, p.1, p.2.1, p.2.2⟩
    else .error .AuthFailed

/-- `CryptoService::unlock`. Mutations performed before a failure (the hash
loaded from an attached repository) persist in the returned state, as they
do through `&mut self` in the source. The fresh salt consumed by the
vault-creation branch is an explicit entropy input. -/
def unlock (c : CryptoService) (master_password fresh_salt : List Nat) :
    Except AppError Unit × CryptoService :=
  let c1 := match c.settings_repo with
    | some stored => { c with master_password_hash := stored }
    | none => c
  match c1.master_password_hash with
  | some stored_hash =>
    match c1.verify_password_and_derive_key master_password stored_hash with
    | .ok key =>
      (.ok (), { c1 with master_key := some key, master_password_hash := some stored_hash })
    | .error e => (.error e, c1)
  | none =>
    match c1.derive_key_and_hash master_password fresh_salt with
    | .ok kh =>
      (.ok (), { c1 with
        master_key := some kh.1
        master_password_hash := some kh.2
        settings_repo := c1.settings_repo.map fun _ => some kh.2 })
    | .error e => (.error e, c1)

/-- `CryptoService::lock`: discard the key, keep the hash. -/
def lock (c : CryptoService) : CryptoService := { c with master_key := none }

/-- `CryptoService::is_unlocked`. -/
def is_unlocked (c : CryptoService) : Bool := c.master_key.isSome

/-- `get_key`: the master key, or `VaultLocked`. -/
def get_key (c : CryptoService) : Except AppError Argon2Key :=
  match c.master_key with
  | some k => .ok k
  | none => .error .VaultLocked

/-- `encrypt_raw`: core encryption. The random 96-bit nonce drawn from
`OsRng` is an explicit entropy input and is returned beside the ciphertext.
The ideal cipher cannot fail, so the source's `EncryptionFailed` arm is
unreachable in the model. -/
def encrypt_raw (c : CryptoService) (nonce plaintext associated_data : List Nat) :
    Except AppError (List Nat × List Nat) :=
  (c.get_key).bind fun key =>
    .ok (nonce, aesGcmEncrypt key nonce associated_data plaintext)

/-- `CryptoService::encrypt`: encrypt and package nonce and ciphertext as
the base64-filled JSON container text. -/
def encrypt (c : CryptoService) (nonce plaintext associated_data : List Nat) :
    Except AppError (List Nat) :=
  (c.encrypt_raw nonce plaintext associated_data).bind fun p =>
    .ok (containerJson (b64Encode p.1) (b64Encode p.2))

/-- `decrypt_raw`: core decryption — key gate, 12-byte nonce length check,
then the AEAD call whose tag failure is `DecryptionFailed`. -/
def decrypt_raw (c : CryptoService) (ciphertext associated_data nonce_bytes : List Nat) :
    Except AppError (List Nat) :=
  (c.get_key).bind fun key =>
    if nonce_bytes.length ≠ 12 then .error (.Crypto .InvalidFormat)
    else
      match aesGcmDecrypt key nonce_bytes associated_data ciphertext with
      | some pt => .ok pt
      | none => .error (.Crypto .Decryption)

/-- `CryptoService::decrypt`: parse the JSON container, base64-decode both
fields, then decrypt. -/
def decrypt (c : CryptoService) (encrypted_container associated_data : List Nat) :
    Except AppError (List Nat) :=
  match parseContainer encrypted_container with
  | none => .error (.Crypto .InvalidFormat)
  | some p =>
    match b64Decode p.1 with
    | none => .error (.Crypto .InvalidFormat)
    | some nonce_bytes =>
      match b64Decode p.2 with
      | none => .error (.Crypto .InvalidFormat)
      | some ciphertext => c.decrypt_raw ciphertext associated_data nonce_bytes

/-- `update_kdf_settings`: replace the live KDF parameters (the stored
master-password hash is not re-derived — see the spec's open question). -/
def update_kdf_settings (c : CryptoService) (settings : AppSettings) : CryptoService :=
  { c with settings := settings }

end CryptoService

/-- Round-trip of the crypto layer alone: decrypt-of-encrypt recovers the
plaintext under the same key and associated data, for a well-formed
12-byte nonce. -/
theorem CryptoService.decrypt_encrypt (c : CryptoService) (k : Argon2Key)
    (nonce pt aad : List Nat) (hk : c.master_key = some k)
    (hn : nonce.length = 12) (hnb : ∀ b ∈ nonce, b < 256) :
    (c.encrypt nonce pt aad).bind (fun s => c.decrypt s aad) = .ok pt := by
  have henc : c.encrypt nonce pt aad =
      .ok (containerJson (b64Encode nonce) (b64Encode (aesGcmEncrypt k nonce aad pt))) := by
    simp [CryptoService.encrypt, CryptoService.encrypt_raw, CryptoService.get_key, hk, Except.bind]
  rw [henc]
  have hq1 : ∀ x ∈ b64Encode nonce, x ≠ 34 := fun x hx => (b64Encode_facts _ x hx).1
  have hq2 : ∀ x ∈ b64Encode (aesGcmEncrypt k nonce aad pt), x ≠ 34 :=
    fun x hx => (b64Encode_facts _ x hx).1
  have hpc := parseContainer_containerJson _ _ hq1 hq2
  have hd1 := b64Decode_b64Encode nonce hnb
  have hd2 := b64Decode_b64Encode (aesGcmEncrypt k nonce aad pt) (aesGcmEncrypt_lt_256 k nonce aad pt)
  simp [CryptoService.decrypt, hpc, hd1, hd2, CryptoService.decrypt_raw, CryptoService.get_key,
    hk, hn, aesGcmDecrypt_aesGcmEncrypt, Except.bind]

/-! ## Serialization models for `serde_json` on plain data

`serde_json` is an external dependency; its serialization of the plain
structures `Secret` and `AppSettings` is modelled as an unambiguous,
invertible byte encoding built from the self-delimiting primitives above
(the precise JSON text is not claim-relevant; invertibility — `from_slice`
of `to_vec` recovers the value — is). The tag list stored in the `tags`
column is the exception: its concrete JSON text shape matters to the SQL
`LIKE` filters, so it is modelled as the literal JSON array text. -/

/-- One optional byte string. -/
def encOptBytes : Option (List Nat) → List Nat
  | none => natB 0
  | some l => natB 1 ++ encSeq l

def parseOptBytes (l : List Nat) : Option (Option (List Nat) × List Nat) :=
  (parseNatB l).bind fun p =>
    if p.1 = 0 then some (none, p.2)
    else (parseSeq p.2).map fun q => (some q.1, q.2)

theorem parseOptBytes_encOptBytes (o : Option (List Nat)) (rest : List Nat) :
    parseOptBytes (encOptBytes o ++ rest) = some (o, rest) := by
  cases o with
  | none => simp [encOptBytes, parseOptBytes, parseNatB_natB]
  | some l =>
    simp [encOptBytes, parseOptBytes, List.append_assoc, parseNatB_natB, parseSeq_encSeq]

/-- An association list of byte-string pairs (model of `HashMap<String, String>`). -/
def encPairs (l : List (List Nat × List Nat)) : List Nat :=
  natB l.length ++ (l.map fun p => encSeq p.1 ++ encSeq p.2).flatten

def parsePairItems : Nat → List Nat → Option (List (List Nat × List Nat) × List Nat)
  | 0, l => some ([], l)
  | n + 1, l =>
    (parseSeq l).bind fun p =>
      (parseSeq p.2).bind fun q =>
        (parsePairItems n q.2).map fun r => ((p.1, q.1) :: r.1, r.2)

def parsePairs (l : List Nat) : Option (List (List Nat × List Nat) × List Nat) :=
  (parseNatB l).bind fun p => parsePairItems p.1 p.2

theorem parsePairItems_append (l : List (List Nat × List Nat)) (rest : List Nat) :
    parsePairItems l.length ((l.map fun p => encSeq p.1 ++ encSeq p.2).flatten ++ rest) =
      some (l, rest) := by
  induction l with
  | nil => simp [parsePairItems]
  | cons x xs ih =>
    simp [parsePairItems, List.append_assoc, parseSeq_encSeq, ih]

theorem parsePairs_encPairs (l : List (List Nat × List Nat)) (rest : List Nat) :
    parsePairs (encPairs l ++ rest) = some (l, rest) := by
  unfold parsePairs encPairs
  rw [List.append_assoc, parseNatB_natB]
  simp [parsePairItems_append]

/-- One optional association list. -/
def encOptPairs : Option (List (List Nat × List Nat)) → List Nat
  | none => natB 0
  | some l => natB 1 ++ encPairs l

def parseOptPairs (l : List Nat) :
    Option (Option (List (List Nat × List Nat)) × List Nat) :=
  (parseNatB l).bind fun p =>
    if p.1 = 0 then some (none, p.2)
    else (parsePairs p.2).map fun q => (some q.1, q.2)

theorem parseOptPairs_encOptPairs (o : Option (List (List Nat × List Nat))) (rest : List Nat) :
    parseOptPairs (encOptPairs o ++ rest) = some (o, rest) := by
  cases o with
  | none => simp [encOptPairs, parseOptPairs, parseNatB_natB]
  | some l =>
    simp [encOptPairs, parseOptPairs, List.append_assoc, parseNatB_natB, parsePairs_encPairs]

/-- A `Bool` as one byte. -/
def encBool (b : Bool) : List Nat := natB (cond b 1 0)

/-- `serde_json::to_vec(&AppSettings)`, modelled as the invertible encoding
of the seven fields in declaration order. -/
def encodeAppSettings (s : AppSettings) : List Nat :=
  natB s.argon2_memory_kb ++ natB s.argon2_iterations ++ natB s.argon2_parallelism ++
    encBool s.use_biometrics ++ natB s.auto_lock_timeout ++ encBool s.enable_sync ++
    encOptPairs s.sync_config

/-- `serde_json::from_slice::<AppSettings>` on the canonical encoding. -/
def parseAppSettings (l : List Nat) : Option AppSettings :=
  (parseNatB l).bind fun m =>
    (parseNatB m.2).bind fun t =>
      (parseNatB t.2).bind fun p =>
        (parseNatB p.2).bind fun bio =>
          (parseNatB bio.2).bind fun lockT =>
            (parseNatB lockT.2).bind fun sync =>
              (parseOptPairs sync.2).bind fun cfg =>
                if cfg.2 = [] then
                  some ⟨m.1, t.1, p.1, bio.1 = 1, lockT.1, sync.1 = 1, cfg.1⟩
                else none

theorem parseAppSettings_encodeAppSettings (s : AppSettings) :
    parseAppSettings (encodeAppSettings s) = some s := by
  have hcfg := parseOptPairs_encOptPairs s.sync_config []
  rw [List.append_nil] at hcfg
  cases s with
  | mk m t p bio lockT sync cfg =>
    cases bio <;> cases sync <;>
      simp [encodeAppSettings, parseAppSettings, encBool, List.append_assoc, parseNatB_natB,
        hcfg]

/-- `serde_json::to_string(&Secret)`, modelled as the invertible encoding of
the four fields in declaration order. -/
def encodeSecret (s : Secret) : List Nat :=
  encSeq s.password ++ encOptBytes s.notes ++ encOptBytes s.totp ++ encPairs s.custom_fields

/-- `serde_json::from_slice::<Secret>` on the canonical encoding. -/
def parseSecret (l : List Nat) : Option Secret :=
  (parseSeq l).bind fun pw =>
    (parseOptBytes pw.2).bind fun notes =>
      (parseOptBytes notes.2).bind fun totp =>
        (parsePairs totp.2).bind fun cf =>
          if cf.2 = [] then some ⟨pw.1, notes.1, totp.1, cf.1⟩ else none

theorem parseSecret_encodeSecret (s : Secret) : parseSecret (encodeSecret s) = some s := by
  have hcf := parsePairs_encPairs s.custom_fields []
  rw [List.append_nil] at hcf
  cases s with
  | mk pw notes totp cf =>
    simp [encodeSecret, parseSecret, List.append_assoc, parseSeq_encSeq,
      parseOptBytes_encOptBytes, hcf]

/-! ## The tags column text (`serde_json::to_string(&Vec<String>)`)

The `tags` column stores the literal JSON array text (e.g. `["a","b"]`),
whose byte shape the SQL `LIKE` filters inspect, so it is embedded
concretely. String escaping is not modelled: the embedding is exact for
tags all of whose bytes are ≥ 32 (no control characters) and none of which
is `"` (34) or backslash (92) — exactly the strings `serde_json`
serializes without escape sequences — and the theorems that inspect this
text carry that hypothesis. -/

/-- The comma-separated quoted elements between the brackets. -/
def jsonTagsBody : List (List Nat) → List Nat
  | [] => []
  | [t] => 34 :: t ++ [34]
  | t :: ts => 34 :: t ++ [34, 44] ++ jsonTagsBody ts

/-- The JSON array text of a tag list. -/
def jsonTags (ts : List (List Nat)) : List Nat := 91 :: jsonTagsBody ts ++ [93]

/-- Scanner state for the array-text parser. -/
inductive TagScan where
  | expectQuote : TagScan
  | inString : TagScan
  | afterString : TagScan
  deriving DecidableEq, Repr

/-- One byte per step over the text after the opening bracket: `acc` holds
the reversed bytes of the string being read, `done` the reversed list of
completed strings; the closing bracket must be the last byte. -/
def tagItemsGo : List Nat → TagScan → List Nat → List (List Nat) → Option (List (List Nat))
  | [], _, _, _ => none
  | b :: rest, .expectQuote, _, done =>
    if b = 34 then tagItemsGo rest .inString [] done else none
  | b :: rest, .inString, acc, done =>
    if b = 34 then tagItemsGo rest .afterString acc (acc.reverse :: done)
    else tagItemsGo rest .inString (b :: acc) done
  | b :: rest, .afterString, acc, done =>
    if b = 44 then tagItemsGo rest .expectQuote [] done
    else if b = 93 then (if rest = [] then some done.reverse else none)
    else none

/-- Parse the comma-separated quoted elements (after the opening bracket). -/
def parseTagItems (l : List Nat) : Option (List (List Nat)) :=
  tagItemsGo l .expectQuote [] []

/-- `serde_json::from_str::<Vec<String>>` on the canonical array text. -/
def parseTags (l : List Nat) : Option (List (List Nat)) :=
  match l with
  | 91 :: rest => if rest = [93] then some [] else parseTagItems rest
  | _ => none

theorem tagItemsGo_string :
    ∀ (t : List Nat), (∀ x ∈ t, x ≠ 34) → ∀ (rest acc : List Nat) (done : List (List Nat)),
      tagItemsGo (t ++ 34 :: rest) .inString acc done =
        tagItemsGo rest .afterString (t.reverse ++ acc) ((acc.reverse ++ t) :: done)
  | [], _, rest, acc, done => by simp [tagItemsGo]
  | c :: t, h, rest, acc, done => by
    have hc : c ≠ 34 := h c (by simp)
    have ih := tagItemsGo_string t (fun x hx => h x (by simp [hx])) rest (c :: acc) done
    rw [List.cons_append, tagItemsGo, if_neg hc, ih]
    simp

theorem tagItemsGo_jsonTagsBody :
    ∀ ts : List (List Nat), ts ≠ [] → (∀ t ∈ ts, ∀ x ∈ t, x ≠ 34) →
      ∀ done, tagItemsGo (jsonTagsBody ts ++ [93]) .expectQuote [] done =
        some (done.reverse ++ ts)
  | [], h, _, _ => absurd rfl h
  | [t], _, hq, done => by
    have ht : ∀ x ∈ t, x ≠ 34 := hq t (by simp)
    have hshape : jsonTagsBody [t] ++ [93] = 34 :: (t ++ 34 :: [93]) := by
      simp [jsonTagsBody]
    rw [hshape, tagItemsGo, if_pos rfl, tagItemsGo_string t ht [93] [] done]
    simp [tagItemsGo]
  | t :: t2 :: ts, _, hq, done => by
    have ht : ∀ x ∈ t, x ≠ 34 := hq t (by simp)
    have ih := tagItemsGo_jsonTagsBody (t2 :: ts) (by simp)
      (fun u hu x hx => hq u (by simp [List.mem_cons] at hu ⊢; tauto) x hx) (t :: done)
    have hshape : jsonTagsBody (t :: t2 :: ts) ++ [93] =
        34 :: (t ++ 34 :: (44 :: (jsonTagsBody (t2 :: ts) ++ [93]))) := by
      simp [jsonTagsBody]
    rw [hshape, tagItemsGo, if_pos rfl,
      tagItemsGo_string t ht (44 :: (jsonTagsBody (t2 :: ts) ++ [93])) [] done]
    rw [tagItemsGo, if_pos rfl]
    simp only [List.reverse_nil, List.nil_append]
    rw [ih]
    simp

theorem parseTagItems_jsonTagsBody (ts : List (List Nat)) (hne : ts ≠ [])
    (hq : ∀ t ∈ ts, ∀ x ∈ t, x ≠ 34) :
    parseTagItems (jsonTagsBody ts ++ [93]) = some ts := by
  rw [parseTagItems, tagItemsGo_jsonTagsBody ts hne hq []]
  simp

theorem parseTags_jsonTags (ts : List (List Nat)) (hq : ∀ t ∈ ts, ∀ x ∈ t, x ≠ 34) :
    parseTags (jsonTags ts) = some ts := by
  cases ts with
  | nil => simp [jsonTags, jsonTagsBody, parseTags]
  | cons t ts =>
    have hne : jsonTagsBody (t :: ts) ++ [93] ≠ [93] := by
      cases ts <;> simp [jsonTagsBody]
    have hred : parseTags (jsonTags (t :: ts)) =
        if (jsonTagsBody (t :: ts) ++ [93]) = [93] then some []
        else parseTagItems (jsonTagsBody (t :: ts) ++ [93]) := rfl
    rw [hred, if_neg hne]
    exact parseTagItems_jsonTagsBody (t :: ts) (by simp) hq

/-! ## SQLite `LIKE` (default, case-insensitive for ASCII)

The filters of `list_credentials` are SQL `LIKE` comparisons. SQLite's
default `LIKE` folds the ASCII range A–Z to lower case on both sides,
`%` (byte 37) matches any byte sequence, `_` (byte 95) any single byte, and
the pattern must cover the whole string. -/

/-- ASCII lower-casing of one byte, as SQLite's default `LIKE` does. -/
def lowerByte (b : Nat) : Nat := if 65 ≤ b ∧ b ≤ 90 then b + 32 else b

/-- ASCII lower-casing of a byte string. -/
def lowerL (l : List Nat) : List Nat := l.map lowerByte

/-- SQLite `LIKE pattern` evaluated on `text`: `%` (37) consumes any byte
sequence — equivalently, the rest of the pattern must match some suffix of
the text — `_` (95) any single byte, and a plain byte must match up to
ASCII case. -/
def likeMatch : List Nat → List Nat → Bool
  | [], t => t.isEmpty
  | p :: ps, t =>
    if p = 37 then t.tails.any fun s => likeMatch ps s
    else
      match t with
      | [] => false
      | c :: ts =>
        if p = 95 then likeMatch ps ts
        else (lowerByte p == lowerByte c) && likeMatch ps ts

/-- `needle` occurs case-insensitively as a contiguous substring of `hay` —
the spec's reading of a `LIKE '%needle%'` condition. -/
def occursCI (needle hay : List Nat) : Prop :=
  ∃ a b, lowerL hay = a ++ (lowerL needle ++ b)

theorem likeMatch_plain_nil (a : Nat) (ps : List Nat) (h : a ≠ 37) :
    likeMatch (a :: ps) [] = false := by
  simp [likeMatch, h]

theorem likeMatch_plain_cons (a : Nat) (ps : List Nat) (c : Nat) (ts : List Nat)
    (h : a ≠ 37) (h2 : a ≠ 95) :
    likeMatch (a :: ps) (c :: ts) = ((lowerByte a == lowerByte c) && likeMatch ps ts) := by
  simp [likeMatch, h, h2]

theorem likeMatch_star (ps t : List Nat) :
    likeMatch (37 :: ps) t = true ↔ ∃ a b, t = a ++ b ∧ likeMatch ps b = true := by
  have hred : likeMatch (37 :: ps) t = (t.tails.any fun s => likeMatch ps s) := by
    simp [likeMatch]
  rw [hred, List.any_eq_true]
  constructor
  · rintro ⟨s, hs, hm⟩
    obtain ⟨a, ha⟩ := (List.mem_tails s t).mp hs
    exact ⟨a, s, ha.symm, hm⟩
  · rintro ⟨a, b, rfl, hm⟩
    exact ⟨b, (List.mem_tails b (a ++ b)).mpr ⟨a, rfl⟩, hm⟩

theorem likeMatch_pct (t : List Nat) : likeMatch [37] t = true :=
  (likeMatch_star [] t).mpr ⟨t, [], by simp, by simp [likeMatch]⟩

theorem likeMatch_plain :
    ∀ (p : List Nat), (∀ x ∈ p, x ≠ 37 ∧ x ≠ 95) →
      ∀ t, (likeMatch (p ++ [37]) t = true ↔ ∃ rest, lowerL t = lowerL p ++ rest)
  | [], _, t => by
    simp only [List.nil_append, likeMatch_pct, lowerL, List.map_nil, true_iff]
    exact ⟨t.map lowerByte, rfl⟩
  | a :: p, hp, t => by
    have ha37 : a ≠ 37 := (hp a (by simp)).1
    have ha95 : a ≠ 95 := (hp a (by simp)).2
    cases t with
    | nil =>
      rw [List.cons_append, likeMatch_plain_nil a _ ha37]
      simp [lowerL]
    | cons c ts =>
      rw [List.cons_append, likeMatch_plain_cons a _ c ts ha37 ha95]
      simp only [Bool.and_eq_true, beq_iff_eq]
      rw [likeMatch_plain p (fun x hx => hp x (by simp [hx])) ts]
      simp only [lowerL, List.map_cons, List.cons_append]
      constructor
      · rintro ⟨h1, rest, h2⟩
        exact ⟨rest, by rw [h2, h1]⟩
      · rintro ⟨rest, h⟩
        injection h with h1 h2
        exact ⟨h1.symm, rest, h2⟩

theorem likeMatch_contains (p : List Nat) (hp : ∀ x ∈ p, x ≠ 37 ∧ x ≠ 95) (t : List Nat) :
    likeMatch (37 :: (p ++ [37])) t = true ↔ occursCI p t := by
  rw [likeMatch_star]
  constructor
  · rintro ⟨a, b, rfl, hb⟩
    rw [likeMatch_plain p hp] at hb
    obtain ⟨rest, hrest⟩ := hb
    refine ⟨lowerL a, rest, ?_⟩
    simp only [lowerL, List.map_append] at hrest ⊢
    rw [hrest]
  · rintro ⟨a, b, hab⟩
    have hlent : (lowerL t).length = t.length := by simp [lowerL]
    have hlena : a.length ≤ t.length := by
      have := congrArg List.length hab
      simp at this
      omega
    refine ⟨t.take a.length, t.drop a.length, (List.take_append_drop _ t).symm, ?_⟩
    rw [likeMatch_plain p hp]
    refine ⟨b, ?_⟩
    have hmap : lowerL (t.drop a.length) = (lowerL t).drop a.length := by
      simp [lowerL, List.map_drop]
    rw [hmap, hab, List.drop_left]

/-! ## Sorting (SQL `ORDER BY`)

`ORDER BY` is modelled as a sort by a boolean total preorder; insertion
sort is used, with membership and sortedness lemmas. -/

/-- Insert an element into a list ordered by `le`. -/
def insertBy (le : α → α → Bool) (r : α) : List α → List α
  | [] => [r]
  | x :: xs => if le r x then r :: x :: xs else x :: insertBy le r xs

/-- Sort a list by `le` (insertion sort). -/
def sortBy (le : α → α → Bool) : List α → List α
  | [] => []
  | x :: xs => insertBy le x (sortBy le xs)

theorem mem_insertBy (le : α → α → Bool) (r : α) :
    ∀ l (y : α), y ∈ insertBy le r l ↔ y = r ∨ y ∈ l
  | [], y => by simp [insertBy]
  | x :: xs, y => by
    by_cases h : le r x = true
    · rw [insertBy, if_pos h]
      simp only [List.mem_cons]
    · rw [insertBy, if_neg h]
      simp only [List.mem_cons, mem_insertBy le r xs y]
      tauto

theorem mem_sortBy (le : α → α → Bool) : ∀ l (y : α), y ∈ sortBy le l ↔ y ∈ l
  | [], y => by simp [sortBy]
  | x :: xs, y => by
    simp only [sortBy, mem_insertBy, List.mem_cons, mem_sortBy le xs y]

theorem pairwise_insertBy (le : α → α → Bool)
    (htot : ∀ a b, le a b = true ∨ le b a = true)
    (htrans : ∀ a b c, le a b = true → le b c = true → le a c = true) (r : α) :
    ∀ l, List.Pairwise (fun a b => le a b = true) l →
      List.Pairwise (fun a b => le a b = true) (insertBy le r l)
  | [], _ => by simp [insertBy]
  | x :: xs, h => by
    rcases List.pairwise_cons.mp h with ⟨hx, hxs⟩
    by_cases hle : le r x = true
    · rw [insertBy, if_pos hle]
      refine List.pairwise_cons.mpr ⟨?_, h⟩
      intro y hy
      rcases List.mem_cons.mp hy with rfl | hy
      · exact hle
      · exact htrans r x y hle (hx y hy)
    · rw [insertBy, if_neg hle]
      refine List.pairwise_cons.mpr ⟨?_, pairwise_insertBy le htot htrans r xs hxs⟩
      intro y hy
      rcases (mem_insertBy le r xs y).mp hy with h1 | hy
      · rcases htot r x with h2 | h2
        · exact absurd h2 hle
        · rw [h1]
          exact h2
      · exact hx y hy

theorem pairwise_sortBy (le : α → α → Bool)
    (htot : ∀ a b, le a b = true ∨ le b a = true)
    (htrans : ∀ a b c, le a b = true → le b c = true → le a c = true) :
    ∀ l, List.Pairwise (fun a b => le a b = true) (sortBy le l)
  | [] => by simp [sortBy]
  | x :: xs => pairwise_insertBy le htot htrans x _ (pairwise_sortBy le htot htrans xs)

/-! ## Bytewise text order (SQLite `BINARY` collation) -/

/-- Bytewise (lexicographic) `≤` on texts, SQLite's default `BINARY`
collation used by `ORDER BY` on `TEXT` columns. -/
def bytesLe : List Nat → List Nat → Bool
  | [], _ => true
  | _ :: _, [] => false
  | a :: as, b :: bs => if a < b then true else if b < a then false else bytesLe as bs

theorem bytesLe_total : ∀ a b : List Nat, bytesLe a b = true ∨ bytesLe b a = true
  | [], _ => by left; rfl
  | _ :: _, [] => by right; rfl
  | a :: as, b :: bs => by
    by_cases h1 : a < b
    · left; simp [bytesLe, h1]
    · by_cases h2 : b < a
      · right; simp [bytesLe, h2]
      · have : ¬b < a := h2
        rcases bytesLe_total as bs with h | h
        · left; simp [bytesLe, h1, h2, h]
        · right; simp [bytesLe, h1, h2, h]

theorem bytesLe_trans :
    ∀ a b c : List Nat, bytesLe a b = true → bytesLe b c = true → bytesLe a c = true
  | [], _, _, _, _ => rfl
  | _ :: _, [], _, h, _ => by simp [bytesLe] at h
  | _ :: _, _ :: _, [], _, h => by simp [bytesLe] at h
  | a :: as, b :: bs, c :: cs, h1, h2 => by
    simp only [bytesLe] at h1 h2 ⊢
    by_cases hab : a < b
    · by_cases hbc : b < c
      · simp [show a < c by omega]
      · by_cases hcb : c < b
        · split_ifs at h2
        · simp [show a < c by omega]
    · by_cases hba : b < a
      · simp [hab, hba] at h1
      · by_cases hbc : b < c
        · simp [show a < c by omega]
        · by_cases hcb : c < b
          · split_ifs at h2
          · have hac : ¬a < c := by omega
            have hca : ¬c < a := by omega
            simp only [hab, hba, ite_false, if_neg (by omega : ¬a < b)] at h1
            simp only [hbc, hcb, ite_false, if_neg (by omega : ¬b < c)] at h2
            simp [hac, hca, bytesLe_trans as bs cs h1 h2]

theorem bytesLe_antisymm :
    ∀ a b : List Nat, bytesLe a b = true → bytesLe b a = true → a = b
  | [], [], _, _ => rfl
  | [], _ :: _, _, h => by simp [bytesLe] at h
  | _ :: _, [], h, _ => by simp [bytesLe] at h
  | a :: as, b :: bs, h1, h2 => by
    simp only [bytesLe] at h1 h2
    by_cases hab : a < b
    · split_ifs at h2 <;> omega
    · by_cases hba : b < a
      · simp [hab, hba] at h1
      · have : a = b := by omega
        subst this
        simp only [lt_irrefl, ite_false, if_neg (lt_irrefl a)] at h1 h2
        rw [bytesLe_antisymm as bs h1 h2]

/-! ## Filter options and the stored row shape -/

/-- ASCII bytes of a string literal (all claim-relevant text is ASCII, where
code points and UTF-8 bytes coincide). -/
def strB (s : String) : List Nat := s.data.map Char.toNat

/-- `vault.rs`: `CredentialFilter`. -/
structure CredentialFilter where
  search_term : Option (List Nat)
  tag : Option (List Nat)
  min_strength : Option Nat
  breach_state : Option BreachState

/-- One row of the `vault_items` table: `tags` holds the serialized JSON
array text, `breach_state` the stored integer. -/
structure ItemRow where
  uuid : List Nat
  site : List Nat
  username : List Nat
  secret_enc : List Nat
  tags_json : List Nat
  created_at : Nat
  updated_at : Nat
  expires_at : Option Nat
  strength : Nat
  breach_state : Nat
  deriving DecidableEq, Repr

/-- Read a `vault_items` row back into a `Credential` (the `query_map`
closures of `sqlite_repo.rs`): tags are deserialized from their JSON text
(failure becomes a row-conversion error, surfacing as a database error),
and the breach integer is decoded with default `Unknown`. -/
def rowToCredential (row : ItemRow) : Except AppError Credential :=
  match parseTags row.tags_json with
  | none => .error .Database
  | some tags =>
    .ok ⟨row.uuid, row.site, row.username, row.secret_enc, tags, row.created_at,
      row.updated_at, row.expires_at, row.strength, BreachState.ofInt row.breach_state⟩

/-- Convert a list of rows, propagating the first row error. -/
def toCredList : List ItemRow → Except AppError (List Credential)
  | [] => .ok []
  | row :: rows =>
    (rowToCredential row).bind fun c => (toCredList rows).map fun cs => c :: cs

/-- `ORDER BY site, username` under the `BINARY` collation. -/
def rowLe (r s : ItemRow) : Bool :=
  if r.site = s.site then bytesLe r.username s.username else bytesLe r.site s.site

theorem rowLe_total (a b : ItemRow) : rowLe a b = true ∨ rowLe b a = true := by
  unfold rowLe
  by_cases h : a.site = b.site
  · simp [h]
    exact bytesLe_total a.username b.username
  · have h2 : ¬b.site = a.site := fun hh => h hh.symm
    simp [h, h2]
    exact bytesLe_total a.site b.site

theorem rowLe_trans (a b c : ItemRow) (h1 : rowLe a b = true) (h2 : rowLe b c = true) :
    rowLe a c = true := by
  unfold rowLe at h1 h2 ⊢
  by_cases hab : a.site = b.site
  · by_cases hbc : b.site = c.site
    · have : a.site = c.site := hab.trans hbc
      rw [if_pos hab] at h1
      rw [if_pos hbc] at h2
      rw [if_pos this]
      exact bytesLe_trans _ _ _ h1 h2
    · have hac : ¬a.site = c.site := fun hh => hbc (hab.symm.trans hh)
      rw [if_neg hbc] at h2
      rw [if_neg hac, hab]
      exact h2
  · by_cases hbc : b.site = c.site
    · have hac : ¬a.site = c.site := fun hh => hab (hh.trans hbc.symm)
      rw [if_neg hab] at h1
      rw [if_neg hac, ← hbc]
      exact h1
    · rw [if_neg hab] at h1
      rw [if_neg hbc] at h2
      by_cases hac : a.site = c.site
      · exfalso
        rw [hac] at h1
        exact hbc (bytesLe_antisymm _ _ h2 h1)
      · rw [if_neg hac]
        exact bytesLe_trans _ _ _ h1 h2

/-! ## `SqliteRepository` (`sqlite_repo.rs`)

The store state: the `vault_items` and `audit_log` tables and the two
singleton `meta` rows. Operations follow the source; an operation that
returns an error before `tx.commit()` leaves the rolled-back (original)
state, so every operation returns `(result, post-state)` with the original
state on error. `Utc::now()` is an explicit clock input. -/

structure SqliteRepo where
  vault_items : List ItemRow
  audit_log : List AuditLogEntry
  meta_settings : Option (List Nat × List Nat)
  master_password_hash : Option PhcHash
  deriving DecidableEq, Repr

namespace SqliteRepo

/-- `add_audit_log_tx`: append one entry inside the open transaction. -/
def add_audit_log_tx (r : SqliteRepo) (now : Nat) (action : List Nat)
    (item_uuid : Option (List Nat)) : SqliteRepo :=
  { r with audit_log := r.audit_log ++ [⟨now, action, item_uuid⟩] }

/-- `add_credential` (trait `CredentialRepository`): serialize tags, INSERT
the row (a duplicate primary key is a database error rolling the
transaction back), append the audit entry, commit. -/
def add_credential (r : SqliteRepo) (credential : Credential) (strength : Nat)
    (now : Nat) : Except AppError Unit × SqliteRepo :=
  if r.vault_items.any (fun row => row.uuid == credential.uuid) then (.error .Database, r)
  else
    let row : ItemRow :=
      { uuid := credential.uuid
        site := credential.site
        username := credential.username
        secret_enc := credential.secret_enc
        tags_json := jsonTags credential.tags
        created_at := credential.created_at
        updated_at := credential.updated_at
        expires_at := credential.expires_at
        strength := strength
        breach_state := credential.breach_state.toInt }
    let r1 := { r with vault_items := r.vault_items ++ [row] }
    (.ok (), r1.add_audit_log_tx now (strB "Added credential for " ++ credential.site)
      (some credential.uuid))

/-- `update_breach_state` (trait `CredentialRepository`): UPDATE the row;
zero affected rows aborts the transaction with `NotFound` (no audit entry
survives the rollback), otherwise append the audit message chosen by the
target state and commit. -/
def update_breach_state (r : SqliteRepo) (uuid : List Nat) (state : BreachState)
    (now : Nat) : Except AppError Unit × SqliteRepo :=
  let rows_affected := (r.vault_items.filter (fun row => row.uuid == uuid)).length
  if rows_affected = 0 then (.error (.NotFound uuid), r)
  else
    let items := r.vault_items.map fun row =>
      if row.uuid == uuid then { row with breach_state := state.toInt } else row
    let action := match state with
      | .Safe => strB "Marked credential as safe"
      | .Compromised => strB "Marked credential as compromised"
      | .Unknown => strB "Reset credential breach state to unknown"
    (.ok (), SqliteRepo.add_audit_log_tx { r with vault_items := items } now action (some uuid))

/-- The WHERE clause built by `list_credentials` for one row: search term
against site OR username OR the tags text (all `LIKE '%term%'`), tag as
`JSON_ARRAY_LENGTH(tags) > 0 AND tags LIKE '%"tag"%'`, strength as an
inclusive lower bound, breach state as integer equality. (On rows written
by this repository the tags text is well-formed JSON; `JSON_ARRAY_LENGTH`
is evaluated through the canonical parser.) -/
def rowMatches (f : CredentialFilter) (row : ItemRow) : Bool :=
  (match f.search_term with
   | none => true
   | some term =>
     likeMatch (37 :: (term ++ [37])) row.site ||
       likeMatch (37 :: (term ++ [37])) row.username ||
       likeMatch (37 :: (term ++ [37])) row.tags_json) &&
  (match f.tag with
   | none => true
   | some tag =>
     (match parseTags row.tags_json with
      | some ts => !ts.isEmpty
      | none => false) &&
       likeMatch (37 :: 34 :: (tag ++ [34, 37])) row.tags_json) &&
  (match f.min_strength with
   | none => true
   | some s => s ≤ row.strength) &&
  (match f.breach_state with
   | none => true
   | some b => row.breach_state == b.toInt)

/-- `list_credentials` (trait `CredentialRepository`): filter, `ORDER BY
site, username`, convert each row. -/
def list_credentials (r : SqliteRepo) (filter : Option CredentialFilter) :
    Except AppError (List Credential) × SqliteRepo :=
  let cond : ItemRow → Bool := fun row =>
    match filter with
    | none => true
    | some f => rowMatches f row
  (toCredList (sortBy rowLe (r.vault_items.filter cond)), r)

end SqliteRepo

/-! ## `VaultManager` (`vault.rs`)

The vault manager of `vault.rs`, which owns its own database connection
(tables `vault_items`, `audit_log`, and the `meta` row `settings`) and a
`CryptoService`. Every operation returns `(result, post-state)`; an error
raised before a transaction commits leaves the original state. Entropy
(AEAD nonces, creation salt, fresh uuids) and the clock are explicit
inputs. -/

structure VaultManager where
  vault_items : List ItemRow
  audit_log : List AuditLogEntry
  meta_settings : Option (List Nat)
  crypto : CryptoService
  is_unlocked : Bool
  deriving DecidableEq, Repr

namespace VaultManager

/-- `ensure_unlocked`: `VaultLocked` unless the unlock flag is set. -/
def ensure_unlocked (vm : VaultManager) : Except AppError Unit :=
  if vm.is_unlocked then .ok () else .error .VaultLocked

/-- `add_audit_log` / `add_audit_log_tx`: append one audit entry. -/
def add_audit_log (vm : VaultManager) (now : Nat) (action : List Nat)
    (item_uuid : Option (List Nat)) : VaultManager :=
  { vm with audit_log := vm.audit_log ++ [⟨now, action, item_uuid⟩] }

/-- `VaultManager::unlock`: delegate to the crypto service; on success set
the unlock flag and log "Vault unlocked"; on failure propagate (keeping any
mutation the crypto service made through its `&mut self`). -/
def unlock (vm : VaultManager) (master_password fresh_salt : List Nat) (now : Nat) :
    Except AppError Unit × VaultManager :=
  match vm.crypto.unlock master_password fresh_salt with
  | (.ok _, c1) =>
    let vm1 := { vm with crypto := c1, is_unlocked := true }
    (.ok (), vm1.add_audit_log now (strB "Vault unlocked") none)
  | (.error e, c1) => (.error e, { vm with crypto := c1 })

/-- `VaultManager::lock`: when unlocked, discard key material, clear the
flag and log "Vault locked"; when already locked, a no-op. -/
def lock (vm : VaultManager) (now : Nat) : Except AppError Unit × VaultManager :=
  if vm.is_unlocked then
    let vm1 := { vm with crypto := vm.crypto.lock, is_unlocked := false }
    (.ok (), vm1.add_audit_log now (strB "Vault locked") none)
  else (.ok (), vm)

/-- Rust `char::is_alphanumeric` restricted to the ASCII bytes the model
carries. -/
def isAlphanumB (c : Nat) : Bool :=
  (48 ≤ c && c ≤ 57) || (65 ≤ c && c ≤ 90) || (97 ≤ c && c ≤ 122)

/-- `calculate_password_strength`: length score (2 per byte, capped at 40)
plus variety bonuses 10/15/15/20. -/
def calculate_password_strength (password : List Nat) : Nat :=
  let length := password.length
  let has_lowercase := password.any fun c => 97 ≤ c && c ≤ 122
  let has_uppercase := password.any fun c => 65 ≤ c && c ≤ 90
  let has_digit := password.any fun c => 48 ≤ c && c ≤ 57
  let has_special := password.any fun c => !isAlphanumB c
  min (length * 2) 40 + cond has_lowercase 10 0 + cond has_uppercase 15 0 +
    cond has_digit 15 0 + cond has_special 20 0

/-- `VaultManager::add_credential` (this revision takes no tags): gate,
serialize and encrypt the secret under `site:username` (58 = `:`), build
the credential, compute strength, then INSERT and audit in one
transaction. (The source interpolates `credential.tags` into the `tags`
column; its serialized JSON text stands for it here.) -/
def add_credential (vm : VaultManager) (site username : List Nat) (secret : Secret)
    (uuid nonce : List Nat) (now : Nat) : Except AppError Credential × VaultManager :=
  match vm.ensure_unlocked with
  | .error e => (.error e, vm)
  | .ok _ =>
    let secret_json := encodeSecret secret
    match vm.crypto.encrypt nonce secret_json (site ++ 58 :: username) with
    | .error e => (.error e, vm)
    | .ok secret_enc =>
      let credential := Credential.new site username secret_enc uuid now
      let strength := calculate_password_strength secret.password
      if vm.vault_items.any (fun row => row.uuid == credential.uuid) then (.error .Database, vm)
      else
        let row : ItemRow :=
          { uuid := credential.uuid
            site := credential.site
            username := credential.username
            secret_enc := credential.secret_enc
            tags_json := jsonTags credential.tags
            created_at := credential.created_at
            updated_at := credential.updated_at
            expires_at := credential.expires_at
            strength := strength
            breach_state := BreachState.Unknown.toInt }
        let vm1 := { vm with vault_items := vm.vault_items ++ [row] }
        (.ok credential,
          vm1.add_audit_log now (strB "Added credential for " ++ site) (some credential.uuid))

/-- `VaultManager::update_credential`: gate, existence check (`NotFound`
aborts the transaction), UPDATE every column except `uuid`/`created_at`
with a fresh `updated_at`, audit, commit. -/
def update_credential (vm : VaultManager) (uuid : List Nat) (updates : Credential)
    (now : Nat) : Except AppError Unit × VaultManager :=
  match vm.ensure_unlocked with
  | .error e => (.error e, vm)
  | .ok _ =>
    if !(vm.vault_items.any fun row => row.uuid == uuid) then (.error (.NotFound uuid), vm)
    else
      let items := vm.vault_items.map fun row =>
        if row.uuid == uuid then
          { row with
            site := updates.site
            username := updates.username
            secret_enc := updates.secret_enc
            tags_json := jsonTags updates.tags
            updated_at := now
            expires_at := updates.expires_at
            strength := updates.strength
            breach_state := updates.breach_state.toInt }
        else row
      let vm1 := { vm with vault_items := items }
      (.ok (),
        vm1.add_audit_log now (strB "Updated credential for " ++ updates.site) (some uuid))

/-- `VaultManager::delete_credential`: gate, read the site (`NotFound` when
absent), DELETE, audit, commit. -/
def delete_credential (vm : VaultManager) (uuid : List Nat) (now : Nat) :
    Except AppError Unit × VaultManager :=
  match vm.ensure_unlocked with
  | .error e => (.error e, vm)
  | .ok _ =>
    match vm.vault_items.find? (fun row => row.uuid == uuid) with
    | none => (.error (.NotFound uuid), vm)
    | some row =>
      let vm1 := { vm with vault_items := vm.vault_items.filter fun r => !(r.uuid == uuid) }
      (.ok (),
        vm1.add_audit_log now (strB "Deleted credential for " ++ row.site) (some uuid))

/-- `VaultManager::get_credential`: gate, read one row (a missing row
surfaces as the propagated database error), convert it. -/
def get_credential (vm : VaultManager) (uuid : List Nat) :
    Except AppError Credential × VaultManager :=
  match vm.ensure_unlocked with
  | .error e => (.error e, vm)
  | .ok _ =>
    match vm.vault_items.find? (fun row => row.uuid == uuid) with
    | none => (.error .Database, vm)
    | some row => (rowToCredential row, vm)

/-- The WHERE clause of this revision's `list_credentials`: search term
against site OR username only, tag as a bare `LIKE '%tag%'` on the tags
text, strength bound, breach equality. -/
def rowMatchesV (f : CredentialFilter) (row : ItemRow) : Bool :=
  (match f.search_term with
   | none => true
   | some term =>
     likeMatch (37 :: (term ++ [37])) row.site ||
       likeMatch (37 :: (term ++ [37])) row.username) &&
  (match f.tag with
   | none => true
   | some tag => likeMatch (37 :: (tag ++ [37])) row.tags_json) &&
  (match f.min_strength with
   | none => true
   | some s => s ≤ row.strength) &&
  (match f.breach_state with
   | none => true
   | some b => row.breach_state == b.toInt)

/-- `VaultManager::list_credentials`: gate, filter (no ORDER BY in this
revision — rows keep table order), convert. -/
def list_credentials (vm : VaultManager) (filter : Option CredentialFilter) :
    Except AppError (List Credential) × VaultManager :=
  match vm.ensure_unlocked with
  | .error e => (.error e, vm)
  | .ok _ =>
    let cond : ItemRow → Bool := fun row =>
      match filter with
      | none => true
      | some f => rowMatchesV f row
    (toCredList (vm.vault_items.filter cond), vm)

/-- `VaultManager::decrypt_secret`: gate, decrypt under the credential's
current `site:username` context, deserialize. -/
def decrypt_secret (vm : VaultManager) (credential : Credential) :
    Except AppError Secret × VaultManager :=
  match vm.ensure_unlocked with
  | .error e => (.error e, vm)
  | .ok _ =>
    match vm.crypto.decrypt credential.secret_enc
        (credential.site ++ 58 :: credential.username) with
    | .error e => (.error e, vm)
    | .ok plaintext =>
      match parseSecret plaintext with
      | none => (.error .Serialization, vm)
      | some s => (.ok s, vm)

/-- `VaultManager::update_breach_state` (this revision): gate, UPDATE the
row — with no affected-rows check — then always audit one of the three
fixed messages and commit. -/
def update_breach_state (vm : VaultManager) (uuid : List Nat) (state : BreachState)
    (now : Nat) : Except AppError Unit × VaultManager :=
  match vm.ensure_unlocked with
  | .error e => (.error e, vm)
  | .ok _ =>
    let items := vm.vault_items.map fun row =>
      if row.uuid == uuid then { row with breach_state := state.toInt } else row
    let action := match state with
      | .Safe => strB "Marked credential as safe"
      | .Compromised => strB "Marked credential as compromised"
      | .Unknown => strB "Reset credential breach state"
    let vm1 := { vm with vault_items := items }
    (.ok (), vm1.add_audit_log now action (some uuid))

/-- `VaultManager::get_settings`: read the `meta` row without any lock
gate; decrypt (context `"app_settings"`) only when unlocked, otherwise —
and when no row exists — return the defaults. -/
def get_settings (vm : VaultManager) : Except AppError AppSettings × VaultManager :=
  match vm.meta_settings with
  | some blob =>
    if vm.is_unlocked then
      match vm.crypto.decrypt blob (strB "app_settings") with
      | .error e => (.error e, vm)
      | .ok pt =>
        match parseAppSettings pt with
        | none => (.error .Serialization, vm)
        | some s => (.ok s, vm)
    else (.ok AppSettings.default, vm)
  | none => (.ok AppSettings.default, vm)

/-- `VaultManager::save_settings`: gate, encrypt the serialized settings
under `"app_settings"`, upsert the `meta` row, update the crypto service's
live KDF parameters, audit "Updated app settings". -/
def save_settings (vm : VaultManager) (settings : AppSettings) (nonce : List Nat)
    (now : Nat) : Except AppError Unit × VaultManager :=
  match vm.ensure_unlocked with
  | .error e => (.error e, vm)
  | .ok _ =>
    let settings_json := encodeAppSettings settings
    match vm.crypto.encrypt nonce settings_json (strB "app_settings") with
    | .error e => (.error e, vm)
    | .ok encrypted =>
      let vm1 := { vm with meta_settings := some encrypted }
      let vm2 := { vm1 with crypto := vm1.crypto.update_kdf_settings settings }
      (.ok (), vm2.add_audit_log now (strB "Updated app settings") none)

/-- `VaultManager::get_audit_log`: gate, newest first (ORDER BY timestamp
DESC), limited (default 100). -/
def get_audit_log (vm : VaultManager) (limit : Option Nat) :
    Except AppError (List AuditLogEntry) × VaultManager :=
  match vm.ensure_unlocked with
  | .error e => (.error e, vm)
  | .ok _ =>
    let limit := limit.getD 100
    ((.ok (((sortBy (fun a b : AuditLogEntry => b.timestamp ≤ a.timestamp)
      vm.audit_log).take limit) )), vm)

end VaultManager

instance {ε α : Type} [DecidableEq ε] [DecidableEq α] : DecidableEq (Except ε α) := fun x y =>
  match x, y with
  | .ok a, .ok b =>
    if h : a = b then isTrue (by rw [h])
    else isFalse (by intro hh; injection hh; contradiction)
  | .error e, .error f =>
    if h : e = f then isTrue (by rw [h])
    else isFalse (by intro hh; injection hh; contradiction)
  | .ok _, .error _ => isFalse (fun hh => Except.noConfusion hh)
  | .error _, .ok _ => isFalse (fun hh => Except.noConfusion hh)

/-! ## The trait-based vault manager revision

`lib.rs` and `tests.rs` construct a `VaultManager` taking a
`CredentialRepository`, `SettingsRepository`, `AuditLogger` and
`PasswordStrengthCalculator` and call `add_credential(site, username,
secret, tags)`; that revision's implementation file is not in the source
tree (only its callers, its traits and the `SqliteRepository` backing it
are), so its orchestration is modelled from the spec where needed. -/

/-- Modelled from the spec: the state of the trait-based `VaultManager`
revision, whose implementation is missing from the source tree — the three
repository handles all backed by one `SqliteRepository` (as `lib.rs` and
`tests.rs` wire them), the owned `CryptoService`, and the unlock flag. -/
structure TraitVaultManager where
  repo : SqliteRepo
  crypto : CryptoService
  is_unlocked : Bool
  deriving DecidableEq, Repr

/-- Modelled from the spec: `add_credential(site, username, secret, tags)` of
the trait-based `VaultManager`, whose implementation is missing from the
source tree. Per the spec it checks the lock gate, serializes the `Secret`
and encrypts it with associated data `site:username`, computes strength via
the injected `StrengthCalculator` (passed here as the function
`strengthCalc`), assigns a fresh uuid and timestamps (explicit inputs),
persists the credential together with its strength atomically with one
audit entry — delegated to `SqliteRepo.add_credential`, which is embedded
from the source — and returns the created `Credential` (metadata only; the
`Credential` type carries no plaintext field). The returned credential
carries the given tags (asserted by `tests.rs`) and the computed
strength. -/
def TraitVaultManager.add_credential (vm : TraitVaultManager) (site username : List Nat)
    (secret : Secret) (tags : Option (List (List Nat))) (strengthCalc : List Nat → Nat)
    (uuid nonce : List Nat) (now : Nat) : Except AppError Credential × TraitVaultManager :=
  if !vm.is_unlocked then (.error .VaultLocked, vm)
  else
    let secret_json := encodeSecret secret
    match vm.crypto.encrypt nonce secret_json (site ++ 58 :: username) with
    | .error e => (.error e, vm)
    | .ok secret_enc =>
      let strength := strengthCalc secret.password
      let credential0 := Credential.new site username secret_enc uuid now
      let credential := { credential0 with tags := tags.getD [], strength := strength }
      match vm.repo.add_credential credential strength now with
      | (.ok _, r1) => (.ok credential, { vm with repo := r1 })
      | (.error e, r1) => (.error e, { vm with repo := r1 })

/-! ## Claims -/

/-- C1: for every public `VaultManager` data operation other than `unlock`,
`lock`, `is_unlocked` and `get_settings` — i.e. `add_credential`,
`update_credential`, `delete_credential`, `get_credential`,
`list_credentials`, `decrypt_secret`, `update_breach_state`,
`save_settings`, `get_audit_log` — if the vault is locked the call fails
with the `VaultLocked` error and the stored state is unchanged. -/
theorem claim_C1_lock_gating (vm : VaultManager) (hlocked : vm.is_unlocked = false) :
    (∀ site username secret uuid nonce now,
      vm.add_credential site username secret uuid nonce now = (.error .VaultLocked, vm)) ∧
    (∀ uuid updates now,
      vm.update_credential uuid updates now = (.error .VaultLocked, vm)) ∧
    (∀ uuid now, vm.delete_credential uuid now = (.error .VaultLocked, vm)) ∧
    (∀ uuid, vm.get_credential uuid = (.error .VaultLocked, vm)) ∧
    (∀ filter, vm.list_credentials filter = (.error .VaultLocked, vm)) ∧
    (∀ credential, vm.decrypt_secret credential = (.error .VaultLocked, vm)) ∧
    (∀ uuid state now, vm.update_breach_state uuid state now = (.error .VaultLocked, vm)) ∧
    (∀ settings nonce now, vm.save_settings settings nonce now = (.error .VaultLocked, vm)) ∧
    (∀ limit, vm.get_audit_log limit = (.error .VaultLocked, vm)) := by
  have hgate : vm.ensure_unlocked = .error .VaultLocked := by
    simp [VaultManager.ensure_unlocked, hlocked]
  refine ⟨?_, ?_, ?_, ?_, ?_, ?_, ?_, ?_, ?_⟩
  · intro site username secret uuid nonce now
    simp [VaultManager.add_credential, hgate]
  · intro uuid updates now
    simp [VaultManager.update_credential, hgate]
  · intro uuid now
    simp [VaultManager.delete_credential, hgate]
  · intro uuid
    simp [VaultManager.get_credential, hgate]
  · intro filter
    simp [VaultManager.list_credentials, hgate]
  · intro credential
    simp [VaultManager.decrypt_secret, hgate]
  · intro uuid state now
    simp [VaultManager.update_breach_state, hgate]
  · intro settings nonce now
    simp [VaultManager.save_settings, hgate]
  · intro limit
    simp [VaultManager.get_audit_log, hgate]

/-- C1 witness: all nine gated operations on a concrete locked vault. -/
theorem claim_C1_lock_gating_witness :
    (VaultManager.add_credential ⟨[], [], none, CryptoService.new AppSettings.default, false⟩
      (strB "a.com") (strB "u") ⟨strB "pw", none, none, []⟩ (strB "id1") [0] 7 =
      (.error .VaultLocked, ⟨[], [], none, CryptoService.new AppSettings.default, false⟩)) ∧
    (VaultManager.update_credential ⟨[], [], none, CryptoService.new AppSettings.default, false⟩
      (strB "id1") (Credential.new (strB "a.com") (strB "u") [] (strB "id1") 7) 8 =
      (.error .VaultLocked, ⟨[], [], none, CryptoService.new AppSettings.default, false⟩)) ∧
    (VaultManager.delete_credential ⟨[], [], none, CryptoService.new AppSettings.default, false⟩
      (strB "id1") 8 =
      (.error .VaultLocked, ⟨[], [], none, CryptoService.new AppSettings.default, false⟩)) ∧
    (VaultManager.get_credential ⟨[], [], none, CryptoService.new AppSettings.default, false⟩
      (strB "id1") =
      (.error .VaultLocked, ⟨[], [], none, CryptoService.new AppSettings.default, false⟩)) ∧
    (VaultManager.list_credentials ⟨[], [], none, CryptoService.new AppSettings.default, false⟩
      none =
      (.error .VaultLocked, ⟨[], [], none, CryptoService.new AppSettings.default, false⟩)) ∧
    (VaultManager.decrypt_secret ⟨[], [], none, CryptoService.new AppSettings.default, false⟩
      (Credential.new (strB "a.com") (strB "u") [] (strB "id1") 7) =
      (.error .VaultLocked, ⟨[], [], none, CryptoService.new AppSettings.default, false⟩)) ∧
    (VaultManager.update_breach_state ⟨[], [], none, CryptoService.new AppSettings.default, false⟩
      (strB "id1") .Safe 8 =
      (.error .VaultLocked, ⟨[], [], none, CryptoService.new AppSettings.default, false⟩)) ∧
    (VaultManager.save_settings ⟨[], [], none, CryptoService.new AppSettings.default, false⟩
      AppSettings.default [0] 8 =
      (.error .VaultLocked, ⟨[], [], none, CryptoService.new AppSettings.default, false⟩)) ∧
    (VaultManager.get_audit_log ⟨[], [], none, CryptoService.new AppSettings.default, false⟩
      none =
      (.error .VaultLocked, ⟨[], [], none, CryptoService.new AppSettings.default, false⟩)) := by
  have h := claim_C1_lock_gating ⟨[], [], none, CryptoService.new AppSettings.default, false⟩ rfl
  exact ⟨h.1 _ _ _ _ _ _, h.2.1 _ _ _, h.2.2.1 _ _, h.2.2.2.1 _, h.2.2.2.2.1 _,
    h.2.2.2.2.2.1 _, h.2.2.2.2.2.2.1 _ _ _, h.2.2.2.2.2.2.2.1 _ _ _, h.2.2.2.2.2.2.2.2 _⟩

/-- C3: for every plaintext byte sequence P and every associated-data byte
string A, while the `CryptoService` is unlocked with some fixed key,
`decrypt(encrypt(P, A), A)` succeeds and returns exactly P (the nonce input
stands for the 12 random bytes `encrypt_raw` draws from `OsRng`). -/
theorem claim_C3_encrypt_decrypt_roundtrip (c : CryptoService) (k : Argon2Key)
    (nonce P A : List Nat) (hk : c.master_key = some k)
    (hn : nonce.length = 12) (hnb : ∀ b ∈ nonce, b < 256) :
    (c.encrypt nonce P A).bind (fun s => c.decrypt s A) = .ok P :=
  CryptoService.decrypt_encrypt c k nonce P A hk hn hnb

/-- C3 witness: a concrete round trip (plaintext bytes are unconstrained —
one exceeds 255 — under context `a.com:u`). -/
theorem claim_C3_encrypt_decrypt_roundtrip_witness :
    (CryptoService.encrypt
        ⟨some ⟨strB "pw", strB "salt", 65536, 3, 4⟩, none, AppSettings.default, none⟩
        [0, 1, 2, 3, 4, 5, 6, 7, 8, 9, 10, 11] [42, 300, 0] (strB "a.com:u")).bind
      (fun s => CryptoService.decrypt
        ⟨some ⟨strB "pw", strB "salt", 65536, 3, 4⟩, none, AppSettings.default, none⟩
        s (strB "a.com:u")) = .ok [42, 300, 0] :=
  claim_C3_encrypt_decrypt_roundtrip _ ⟨strB "pw", strB "salt", 65536, 3, 4⟩ _ _ _
    rfl (by decide) (by decide)

/-- C4: the key produced at vault creation by `derive_key_and_hash` equals
the key later produced by `verify_password_and_derive_key` given the same
password and the verification hash `derive_key_and_hash` returned — the
hash-mode and key-mode derivations use the identical salt and agree on the
key. -/
theorem claim_C4_same_salt_same_key (c : CryptoService) (pw salt : List Nat)
    (k : Argon2Key) (ph : PhcHash)
    (h : c.derive_key_and_hash pw salt = .ok (k, ph)) :
    ph.salt = salt ∧ c.verify_password_and_derive_key pw ph = .ok k := by
  cases hv : CryptoService.validParams c.settings with
  | false =>
    rw [CryptoService.derive_key_and_hash, CryptoService.get_argon2_instance, hv] at h
    simp [Except.bind] at h
  | true =>
    rw [CryptoService.derive_key_and_hash, CryptoService.get_argon2_instance, hv] at h
    simp only [ite_true, Except.bind] at h
    injection h with h
    injection h with h1 h2
    subst h1
    subst h2
    refine ⟨rfl, ?_⟩
    rw [CryptoService.verify_password_and_derive_key, CryptoService.get_argon2_instance, hv]
    simp [Except.bind]

/-- C4 witness: derivation and re-derivation agree on a concrete password,
salt and the default KDF parameters. -/
theorem claim_C4_same_salt_same_key_witness :
    CryptoService.derive_key_and_hash (CryptoService.new AppSettings.default)
        (strB "master") (strB "saltsalt") =
      .ok (⟨strB "master", strB "saltsalt", 65536, 3, 4⟩,
        ⟨65536, 3, 4, strB "saltsalt", ⟨strB "master", strB "saltsalt", 65536, 3, 4⟩⟩) ∧
    (⟨65536, 3, 4, strB "saltsalt", ⟨strB "master", strB "saltsalt", 65536, 3, 4⟩⟩ :
        PhcHash).salt = strB "saltsalt" ∧
    CryptoService.verify_password_and_derive_key (CryptoService.new AppSettings.default)
        (strB "master")
        ⟨65536, 3, 4, strB "saltsalt", ⟨strB "master", strB "saltsalt", 65536, 3, 4⟩⟩ =
      .ok ⟨strB "master", strB "saltsalt", 65536, 3, 4⟩ := by
  refine ⟨rfl, ?_⟩
  exact claim_C4_same_salt_same_key (CryptoService.new AppSettings.default)
    (strB "master") (strB "saltsalt") _ _ rfl

/-- C5: `update_breach_state(uuid, state)` on the repository fails with
`NotFound` and appends no audit entry when the uuid is absent (the
transaction rolls back, leaving the store unchanged), and succeeds
appending exactly one audit entry referencing that uuid when present. -/
theorem claim_C5_update_breach_state (r : SqliteRepo) (uuid : List Nat)
    (state : BreachState) (now : Nat) :
    ((∀ row ∈ r.vault_items, row.uuid ≠ uuid) →
      r.update_breach_state uuid state now = (.error (.NotFound uuid), r)) ∧
    ((∃ row ∈ r.vault_items, row.uuid = uuid) →
      ∃ r', r.update_breach_state uuid state now = (.ok (), r') ∧
        ∃ entry, r'.audit_log = r.audit_log ++ [entry] ∧ entry.item_uuid = some uuid) := by
  constructor
  · intro habs
    have hfil : r.vault_items.filter (fun row => row.uuid == uuid) = [] := by
      rw [List.filter_eq_nil]
      intro a ha
      simp [habs a ha]
    simp [SqliteRepo.update_breach_state, hfil]
  · rintro ⟨row, hrow, hu⟩
    have hne : (r.vault_items.filter (fun row => row.uuid == uuid)).length ≠ 0 := by
      intro h0
      rw [List.length_eq_zero, List.filter_eq_nil] at h0
      exact h0 row hrow (by simp [hu])
    have heq : r.update_breach_state uuid state now =
        (.ok (), SqliteRepo.add_audit_log_tx
          { r with vault_items := r.vault_items.map fun row =>
              if row.uuid == uuid then { row with breach_state := state.toInt } else row }
          now
          (match state with
            | .Safe => strB "Marked credential as safe"
            | .Compromised => strB "Marked credential as compromised"
            | .Unknown => strB "Reset credential breach state to unknown")
          (some uuid)) := by
      unfold SqliteRepo.update_breach_state
      rw [if_neg hne]
    exact ⟨_, heq, ⟨now, _, some uuid⟩, rfl, rfl⟩

/-- C5 witness: the present case on a one-row store (one audit entry
appended, referencing the uuid) and the absent case on the same store with
a different uuid (`NotFound`, store unchanged). -/
theorem claim_C5_update_breach_state_witness :
    (∃ r', SqliteRepo.update_breach_state
        ⟨[⟨strB "id1", strB "a.com", strB "u", [], jsonTags [], 0, 0, none, 10, 0⟩],
          [], none, none⟩ (strB "id1") .Compromised 9 = (.ok (), r') ∧
      ∃ entry, r'.audit_log = [] ++ [entry] ∧ entry.item_uuid = some (strB "id1")) ∧
    SqliteRepo.update_breach_state
        ⟨[⟨strB "id1", strB "a.com", strB "u", [], jsonTags [], 0, 0, none, 10, 0⟩],
          [], none, none⟩ (strB "id2") .Compromised 9 =
      (.error (.NotFound (strB "id2")),
        ⟨[⟨strB "id1", strB "a.com", strB "u", [], jsonTags [], 0, 0, none, 10, 0⟩],
          [], none, none⟩) := by
  constructor
  · exact (claim_C5_update_breach_state _ (strB "id1") .Compromised 9).2
      ⟨⟨strB "id1", strB "a.com", strB "u", [], jsonTags [], 0, 0, none, 10, 0⟩,
        by simp, rfl⟩
  · exact (claim_C5_update_breach_state _ (strB "id2") .Compromised 9).1
      (by intro row hrow; simp at hrow; rw [hrow]; decide)

/-- C9: while unlocked, `save_settings(S)` followed by `get_settings()`
returns exactly S; while locked, `get_settings()` returns the default
settings without error, whatever the store holds. -/
theorem claim_C9_settings_roundtrip (vm : VaultManager) (S : AppSettings) :
    (∀ (k : Argon2Key) (nonce : List Nat) (now : Nat),
      vm.is_unlocked = true → vm.crypto.master_key = some k →
      nonce.length = 12 → (∀ b ∈ nonce, b < 256) →
      ∃ vm', vm.save_settings S nonce now = (.ok (), vm') ∧
        vm'.get_settings = (.ok S, vm')) ∧
    (vm.is_unlocked = false → vm.get_settings = (.ok AppSettings.default, vm)) := by
  constructor
  · intro k nonce now hu hk hn hnb
    have hgate : vm.ensure_unlocked = .ok () := by
      simp [VaultManager.ensure_unlocked, hu]
    have henc : vm.crypto.encrypt nonce (encodeAppSettings S) (strB "app_settings") =
        .ok (containerJson (b64Encode nonce)
          (b64Encode (aesGcmEncrypt k nonce (strB "app_settings") (encodeAppSettings S)))) := by
      simp [CryptoService.encrypt, CryptoService.encrypt_raw, CryptoService.get_key, hk,
        Except.bind]
    have hsave : vm.save_settings S nonce now =
        (.ok (), { vm with
          meta_settings := some (containerJson (b64Encode nonce)
            (b64Encode (aesGcmEncrypt k nonce (strB "app_settings") (encodeAppSettings S)))),
          crypto := { vm.crypto with settings := S },
          audit_log := vm.audit_log ++ [⟨now, strB "Updated app settings", none⟩] }) := by
      unfold VaultManager.save_settings
      rw [hgate]
      simp only [henc]
      rfl
    have hq1 : ∀ x ∈ b64Encode nonce, x ≠ 34 := fun x hx => (b64Encode_facts _ x hx).1
    have hq2 : ∀ x ∈ b64Encode
        (aesGcmEncrypt k nonce (strB "app_settings") (encodeAppSettings S)), x ≠ 34 :=
      fun x hx => (b64Encode_facts _ x hx).1
    have hpc := parseContainer_containerJson _ _ hq1 hq2
    have hd1 := b64Decode_b64Encode nonce hnb
    have hd2 := b64Decode_b64Encode
      (aesGcmEncrypt k nonce (strB "app_settings") (encodeAppSettings S))
      (aesGcmEncrypt_lt_256 k nonce (strB "app_settings") (encodeAppSettings S))
    refine ⟨_, hsave, ?_⟩
    unfold VaultManager.get_settings
    simp only [hu, ite_true]
    simp [CryptoService.decrypt, hpc, hd1, hd2, CryptoService.decrypt_raw,
      CryptoService.get_key, hk, hn, aesGcmDecrypt_aesGcmEncrypt, Except.bind,
      parseAppSettings_encodeAppSettings]
  · intro hlocked
    cases hms : vm.meta_settings <;> simp [VaultManager.get_settings, hms, hlocked]

/-- C9 witness: a concrete save-then-get returning the saved settings while
unlocked, and a concrete locked get returning the defaults. -/
theorem claim_C9_settings_roundtrip_witness :
    ((VaultManager.save_settings
        ⟨[], [], none, ⟨some ⟨strB "pw", strB "sa", 65536, 3, 4⟩, none,
          AppSettings.default, none⟩, true⟩
        ⟨32768, 2, 1, false, 10, true, some [(strB "k", strB "v")]⟩
        [0, 1, 2, 3, 4, 5, 6, 7, 8, 9, 10, 11] 3).1 = .ok ()) ∧
    (((VaultManager.save_settings
        ⟨[], [], none, ⟨some ⟨strB "pw", strB "sa", 65536, 3, 4⟩, none,
          AppSettings.default, none⟩, true⟩
        ⟨32768, 2, 1, false, 10, true, some [(strB "k", strB "v")]⟩
        [0, 1, 2, 3, 4, 5, 6, 7, 8, 9, 10, 11] 3).2.get_settings).1 =
      .ok ⟨32768, 2, 1, false, 10, true, some [(strB "k", strB "v")]⟩) ∧
    (VaultManager.get_settings
        ⟨[], [], some (strB "junk"), CryptoService.new AppSettings.default, false⟩ =
      (.ok AppSettings.default,
        ⟨[], [], some (strB "junk"), CryptoService.new AppSettings.default, false⟩)) := by
  obtain ⟨vm', hsave, hget⟩ :=
    (claim_C9_settings_roundtrip
      ⟨[], [], none, ⟨some ⟨strB "pw", strB "sa", 65536, 3, 4⟩, none,
        AppSettings.default, none⟩, true⟩
      ⟨32768, 2, 1, false, 10, true, some [(strB "k", strB "v")]⟩).1
      ⟨strB "pw", strB "sa", 65536, 3, 4⟩
      [0, 1, 2, 3, 4, 5, 6, 7, 8, 9, 10, 11] 3 rfl rfl (by decide) (by decide)
  refine ⟨?_, ?_, ?_⟩
  · rw [hsave]
  · rw [hsave]
    simp only [hget]
  · exact (claim_C9_settings_roundtrip
      ⟨[], [], some (strB "junk"), CryptoService.new AppSettings.default, false⟩
      AppSettings.default).2 rfl

/-- The verification hash `CryptoService::unlock` checks against: loaded
from the attached settings repository when one is present, the in-memory
field otherwise. -/
def CryptoService.effective_hash (c : CryptoService) : Option PhcHash :=
  match c.settings_repo with
  | some stored => stored
  | none => c.master_password_hash

/-- A failed `CryptoService::unlock` never touches the key material. -/
theorem CryptoService.unlock_error_key (c : CryptoService) (pw salt : List Nat)
    (e : AppError) (c1 : CryptoService)
    (h : c.unlock pw salt = (.error e, c1)) : c1.master_key = c.master_key := by
  unfold CryptoService.unlock at h
  rcases hsr : c.settings_repo with _ | stored <;> rw [hsr] at h <;> simp only at h
  · cases hmph : c.master_password_hash <;> rw [hmph] at h <;> simp only at h
    · cases hd : c.derive_key_and_hash pw salt <;> rw [hd] at h <;> simp only at h
      · injection h with h1 h2
        rw [← h2]
      · exact absurd (congrArg Prod.fst h) (by simp)
    · cases hv : c.verify_password_and_derive_key pw _ <;> rw [hv] at h <;> simp only at h
      · injection h with h1 h2
        rw [← h2]
      · exact absurd (congrArg Prod.fst h) (by simp)
  · cases hmph : stored <;> rw [hmph] at h <;> simp only at h
    · cases hd : CryptoService.derive_key_and_hash _ pw salt <;> rw [hd] at h <;>
        simp only at h
      · injection h with h1 h2
        rw [← h2]
      · exact absurd (congrArg Prod.fst h) (by simp)
    · cases hv : CryptoService.verify_password_and_derive_key _ pw _ <;> rw [hv] at h <;>
        simp only at h
      · injection h with h1 h2
        rw [← h2]
      · exact absurd (congrArg Prod.fst h) (by simp)

/-- `CryptoService::unlock` against a known stored hash (whether loaded
from the attached repository or already in memory): the password that
produced the hash yields the re-derived key, any other password fails with
`AuthenticationFailed` changing nothing but the loaded hash field. -/
theorem CryptoService.unlock_with_hash (ck : Option Argon2Key) (cmph : Option PhcHash)
    (cset : AppSettings) (csr : Option (Option PhcHash)) (h : PhcHash)
    (pw pw0 salt : List Nat)
    (hstore : CryptoService.effective_hash ⟨ck, cmph, cset, csr⟩ = some h)
    (hprod : h.digest = ⟨pw, h.salt, h.memKb, h.iters, h.par⟩)
    (hvalid : CryptoService.validParams cset = true) :
    CryptoService.unlock ⟨ck, cmph, cset, csr⟩ pw0 salt =
      if pw0 = pw then
        (.ok (), ⟨some ⟨pw0, h.salt, cset.argon2_memory_kb, cset.argon2_iterations,
          cset.argon2_parallelism⟩, some h, cset, csr⟩)
      else (.error .AuthFailed, ⟨ck, some h, cset, csr⟩) := by
  rcases csr with _ | stored
  · have hmph : cmph = some h := hstore
    subst hmph
    unfold CryptoService.unlock CryptoService.verify_password_and_derive_key
      CryptoService.get_argon2_instance
    simp only [hvalid, ite_true, Except.bind, hprod, Argon2Key.mk.injEq, and_true]
    by_cases hpp : pw0 = pw <;> simp [hpp]
  · have hst : stored = some h := hstore
    subst hst
    unfold CryptoService.unlock CryptoService.verify_password_and_derive_key
      CryptoService.get_argon2_instance
    simp only [hvalid, ite_true, Except.bind, hprod, Argon2Key.mk.injEq, and_true]
    by_cases hpp : pw0 = pw <;> simp [hpp]

/-- C2: on a vault that already holds a stored master-password verification
hash, `unlock` with the password that produced the hash succeeds,
transitions to Unlocked with key material populated (and logs the unlock);
`unlock` with any other password fails with `AuthenticationFailed`, leaves
the state Locked with no key material, and writes no audit entry (all
stored state unchanged). -/
theorem claim_C2_unlock_password_verification (ck : Option Argon2Key)
    (cmph : Option PhcHash) (cset : AppSettings) (csr : Option (Option PhcHash))
    (items : List ItemRow) (audit : List AuditLogEntry) (meta : Option (List Nat))
    (h : PhcHash) (pw : List Nat)
    (hstore : CryptoService.effective_hash ⟨ck, cmph, cset, csr⟩ = some h)
    (hprod : h.digest = ⟨pw, h.salt, h.memKb, h.iters, h.par⟩)
    (hvalid : CryptoService.validParams cset = true)
    (hkey : ck = none) :
    (∀ salt now, ∃ vm',
      VaultManager.unlock ⟨items, audit, meta, ⟨ck, cmph, cset, csr⟩, false⟩ pw salt now =
        (.ok (), vm') ∧
      vm'.is_unlocked = true ∧ (∃ k, vm'.crypto.master_key = some k) ∧
      vm'.audit_log = audit ++ [⟨now, strB "Vault unlocked", none⟩]) ∧
    (∀ pw' salt now, pw' ≠ pw →
      VaultManager.unlock ⟨items, audit, meta, ⟨ck, cmph, cset, csr⟩, false⟩ pw' salt now =
        (.error .AuthFailed, ⟨items, audit, meta, ⟨ck, some h, cset, csr⟩, false⟩)) := by
  constructor
  · intro salt now
    have hcu := CryptoService.unlock_with_hash ck cmph cset csr h pw pw salt
      hstore hprod hvalid
    rw [if_pos rfl] at hcu
    refine ⟨⟨items, audit ++ [⟨now, strB "Vault unlocked", none⟩], meta,
      ⟨some ⟨pw, h.salt, cset.argon2_memory_kb, cset.argon2_iterations,
        cset.argon2_parallelism⟩, some h, cset, csr⟩, true⟩, ?_, rfl, ⟨_, rfl⟩, rfl⟩
    unfold VaultManager.unlock
    rw [hcu]
    rfl
  · intro pw' salt now hne
    have hcu := CryptoService.unlock_with_hash ck cmph cset csr h pw pw' salt
      hstore hprod hvalid
    rw [if_neg hne] at hcu
    unfold VaultManager.unlock
    rw [hcu]

/-- C2 witness: a concrete vault holding the hash for password `a`:
unlocking with `a` succeeds and logs, unlocking with `b` fails with
`AuthenticationFailed` leaving everything unchanged. -/
theorem claim_C2_unlock_password_verification_witness :
    (∃ vm', VaultManager.unlock
        ⟨[], [], none, ⟨none, some ⟨65536, 3, 4, strB "sa",
          ⟨strB "a", strB "sa", 65536, 3, 4⟩⟩, AppSettings.default, none⟩, false⟩
        (strB "a") (strB "s2") 5 = (.ok (), vm') ∧
      vm'.is_unlocked = true ∧ (∃ k, vm'.crypto.master_key = some k) ∧
      vm'.audit_log = [] ++ [⟨5, strB "Vault unlocked", none⟩]) ∧
    VaultManager.unlock
        ⟨[], [], none, ⟨none, some ⟨65536, 3, 4, strB "sa",
          ⟨strB "a", strB "sa", 65536, 3, 4⟩⟩, AppSettings.default, none⟩, false⟩
        (strB "b") (strB "s2") 5 =
      (.error .AuthFailed,
        ⟨[], [], none, ⟨none, some ⟨65536, 3, 4, strB "sa",
          ⟨strB "a", strB "sa", 65536, 3, 4⟩⟩, AppSettings.default, none⟩, false⟩) := by
  have h := claim_C2_unlock_password_verification none
    (some ⟨65536, 3, 4, strB "sa", ⟨strB "a", strB "sa", 65536, 3, 4⟩⟩)
    AppSettings.default none [] [] none
    ⟨65536, 3, 4, strB "sa", ⟨strB "a", strB "sa", 65536, 3, 4⟩⟩
    (strB "a") rfl rfl (by decide) rfl
  exact ⟨h.1 (strB "s2") 5, h.2 (strB "b") (strB "s2") 5 (by decide)⟩

/-- C10 (implicit): if the vault is already unlocked and an `unlock` call
fails, the previously held key material is left in place and the vault
remains Unlocked — a failed re-unlock never locks the vault or replaces its
key. -/
theorem claim_C10_failed_reunlock_preserves_key (vm : VaultManager) (k : Argon2Key)
    (pw salt : List Nat) (now : Nat) (e : AppError) (vm' : VaultManager)
    (hunlocked : vm.is_unlocked = true)
    (hkey : vm.crypto.master_key = some k)
    (hfail : vm.unlock pw salt now = (.error e, vm')) :
    vm'.is_unlocked = true ∧ vm'.crypto.master_key = some k := by
  unfold VaultManager.unlock at hfail
  rcases hcu : vm.crypto.unlock pw salt with ⟨r, c1⟩
  rw [hcu] at hfail
  cases r with
  | ok u => exact absurd (congrArg (fun p => p.1) hfail) (by simp)
  | error e2 =>
    simp only at hfail
    injection hfail with h1 h2
    rw [← h2]
    refine ⟨hunlocked, ?_⟩
    rw [CryptoService.unlock_error_key vm.crypto pw salt e2 c1 hcu]
    exact hkey

/-- C10 witness: a concrete unlocked vault (hash stored for password `a`,
key in memory); re-unlocking with the wrong password `b` fails with
`AuthenticationFailed` and the vault stays unlocked with the same key. -/
theorem claim_C10_failed_reunlock_preserves_key_witness :
    VaultManager.unlock
        ⟨[], [], none, ⟨some ⟨strB "a", strB "sa", 65536, 3, 4⟩,
          some ⟨65536, 3, 4, strB "sa", ⟨strB "a", strB "sa", 65536, 3, 4⟩⟩,
          AppSettings.default, none⟩, true⟩
        (strB "b") (strB "s2") 5 =
      (.error .AuthFailed,
        ⟨[], [], none, ⟨some ⟨strB "a", strB "sa", 65536, 3, 4⟩,
          some ⟨65536, 3, 4, strB "sa", ⟨strB "a", strB "sa", 65536, 3, 4⟩⟩,
          AppSettings.default, none⟩, true⟩) ∧
    (⟨[], [], none, ⟨some ⟨strB "a", strB "sa", 65536, 3, 4⟩,
        some ⟨65536, 3, 4, strB "sa", ⟨strB "a", strB "sa", 65536, 3, 4⟩⟩,
        AppSettings.default, none⟩, true⟩ : VaultManager).is_unlocked = true ∧
    (⟨[], [], none, ⟨some ⟨strB "a", strB "sa", 65536, 3, 4⟩,
        some ⟨65536, 3, 4, strB "sa", ⟨strB "a", strB "sa", 65536, 3, 4⟩⟩,
        AppSettings.default, none⟩, true⟩ : VaultManager).crypto.master_key =
      some ⟨strB "a", strB "sa", 65536, 3, 4⟩ := by
  refine ⟨by decide, ?_⟩
  exact claim_C10_failed_reunlock_preserves_key
    ⟨[], [], none, ⟨some ⟨strB "a", strB "sa", 65536, 3, 4⟩,
      some ⟨65536, 3, 4, strB "sa", ⟨strB "a", strB "sa", 65536, 3, 4⟩⟩,
      AppSettings.default, none⟩, true⟩
    ⟨strB "a", strB "sa", 65536, 3, 4⟩ (strB "b") (strB "s2") 5 .AuthFailed _
    rfl rfl (by decide)

/-- C6: every successful `add_credential(site, username, secret, tags)` call
while unlocked assigns the fresh uuid, computes the strength of
`secret.password` via the injected strength calculator, persists a record
carrying the given site, username, tags and that strength atomically with
exactly one audit entry, and returns a `Credential` describing the
persisted record (same uuid, site, username, tags and strength; the
`Credential` type carries only the encrypted secret, no plaintext). -/
theorem claim_C6_add_credential (vm : TraitVaultManager) (site username : List Nat)
    (secret : Secret) (tags : Option (List (List Nat))) (sc : List Nat → Nat)
    (uuid nonce : List Nat) (now : Nat) (k : Argon2Key)
    (hu : vm.is_unlocked = true) (hk : vm.crypto.master_key = some k)
    (hfresh : ∀ row ∈ vm.repo.vault_items, row.uuid ≠ uuid) :
    ∃ cred vm',
      vm.add_credential site username secret tags sc uuid nonce now = (.ok cred, vm') ∧
      cred.uuid = uuid ∧ cred.site = site ∧ cred.username = username ∧
      cred.tags = tags.getD [] ∧ cred.strength = sc secret.password ∧
      (∃ row, vm'.repo.vault_items = vm.repo.vault_items ++ [row] ∧
        row.uuid = cred.uuid ∧ row.site = cred.site ∧ row.username = cred.username ∧
        row.tags_json = jsonTags cred.tags ∧ row.strength = cred.strength) ∧
      vm'.repo.audit_log = vm.repo.audit_log ++
        [⟨now, strB "Added credential for " ++ site, some uuid⟩] := by
  have henc : vm.crypto.encrypt nonce (encodeSecret secret) (site ++ 58 :: username) =
      .ok (containerJson (b64Encode nonce)
        (b64Encode (aesGcmEncrypt k nonce (site ++ 58 :: username) (encodeSecret secret)))) := by
    simp [CryptoService.encrypt, CryptoService.encrypt_raw, CryptoService.get_key, hk,
      Except.bind]
  have hany : vm.repo.vault_items.any (fun row => row.uuid == uuid) = false := by
    rw [List.any_eq_false]
    intro row hrow
    simp [hfresh row hrow]
  have hmain : vm.add_credential site username secret tags sc uuid nonce now =
      (.ok ⟨uuid, site, username,
          containerJson (b64Encode nonce)
            (b64Encode (aesGcmEncrypt k nonce (site ++ 58 :: username) (encodeSecret secret))),
          tags.getD [], now, now, none, sc secret.password, .Unknown⟩,
        { vm with repo := { vm.repo with
          vault_items := vm.repo.vault_items ++
            [⟨uuid, site, username,
              containerJson (b64Encode nonce)
                (b64Encode (aesGcmEncrypt k nonce (site ++ 58 :: username)
                  (encodeSecret secret))),
              jsonTags (tags.getD []), now, now, none, sc secret.password, 0⟩],
          audit_log := vm.repo.audit_log ++
            [⟨now, strB "Added credential for " ++ site, some uuid⟩] } }) := by
    unfold TraitVaultManager.add_credential
    rw [hu]
    simp only [Bool.not_true, Bool.false_eq_true, if_false, henc]
    unfold SqliteRepo.add_credential
    simp only [Credential.new, hany, Bool.false_eq_true, if_false]
    rfl
  exact ⟨_, _, hmain, rfl, rfl, rfl, rfl, rfl,
    ⟨⟨uuid, site, username,
      containerJson (b64Encode nonce)
        (b64Encode (aesGcmEncrypt k nonce (site ++ 58 :: username) (encodeSecret secret))),
      jsonTags (tags.getD []), now, now, none, sc secret.password, 0⟩,
      rfl, rfl, rfl, rfl, rfl, rfl⟩, rfl⟩

/-- C6 witness: a concrete add on an unlocked vault with an empty store,
with the strength calculator returning the password length. -/
theorem claim_C6_add_credential_witness :
    ∃ cred vm',
      TraitVaultManager.add_credential
        ⟨⟨[], [], none, none⟩,
          ⟨some ⟨strB "pw", strB "sa", 65536, 3, 4⟩, none, AppSettings.default, none⟩, true⟩
        (strB "a.com") (strB "u") ⟨strB "secret1", none, none, []⟩
        (some [strB "work"]) (fun p => p.length) (strB "id9") [0, 1, 2] 6 =
        (.ok cred, vm') ∧
      cred.uuid = strB "id9" ∧ cred.site = strB "a.com" ∧ cred.username = strB "u" ∧
      cred.tags = (some [strB "work"]).getD [] ∧
      cred.strength = (fun p : List Nat => p.length) (strB "secret1") ∧
      (∃ row, vm'.repo.vault_items = [] ++ [row] ∧
        row.uuid = cred.uuid ∧ row.site = cred.site ∧ row.username = cred.username ∧
        row.tags_json = jsonTags cred.tags ∧ row.strength = cred.strength) ∧
      vm'.repo.audit_log = [] ++
        [⟨6, strB "Added credential for " ++ strB "a.com", some (strB "id9")⟩] :=
  claim_C6_add_credential
    ⟨⟨[], [], none, none⟩,
      ⟨some ⟨strB "pw", strB "sa", 65536, 3, 4⟩, none, AppSettings.default, none⟩, true⟩
    (strB "a.com") (strB "u") ⟨strB "secret1", none, none, []⟩
    (some [strB "work"]) (fun p => p.length) (strB "id9") [0, 1, 2] 6
    ⟨strB "pw", strB "sa", 65536, 3, 4⟩ rfl rfl (by intro row hrow; simp at hrow)

theorem bytesLe_refl : ∀ a : List Nat, bytesLe a a = true
  | [] => rfl
  | x :: xs => by simp [bytesLe, bytesLe_refl xs]

/-- A successful row conversion relates rows to credentials elementwise. -/
theorem toCredList_forall2 :
    ∀ (l : List ItemRow) (out : List Credential), toCredList l = .ok out →
      List.Forall₂ (fun row c => rowToCredential row = .ok c) l out
  | [], out, h => by
    simp only [toCredList] at h
    injection h with h
    rw [← h]
    exact List.Forall₂.nil
  | row :: rows, out, h => by
    unfold toCredList at h
    cases hr : rowToCredential row with
    | error e => rw [hr] at h; simp [Except.bind] at h
    | ok c =>
      rw [hr] at h
      simp only [Except.bind] at h
      cases ht : toCredList rows with
      | error e => rw [ht] at h; simp [Except.map] at h
      | ok cs =>
        rw [ht] at h
        simp only [Except.map] at h
        injection h with h
        rw [← h]
        exact List.Forall₂.cons hr (toCredList_forall2 rows cs ht)

theorem rowToCredential_site_username (row : ItemRow) (c : Credential)
    (h : rowToCredential row = .ok c) : c.site = row.site ∧ c.username = row.username := by
  unfold rowToCredential at h
  cases hp : parseTags row.tags_json with
  | none => rw [hp] at h; exact Except.noConfusion h
  | some tags =>
    rw [hp] at h
    injection h with h
    rw [← h]
    exact ⟨rfl, rfl⟩

theorem forall2_mem_right {α β : Type} {R : α → β → Prop} :
    ∀ {l : List α} {m : List β}, List.Forall₂ R l m → ∀ y ∈ m, ∃ x ∈ l, R x y
  | _, _, List.Forall₂.nil => by intro y hy; simp at hy
  | _, _, List.Forall₂.cons hr hf => by
    intro y hy
    rcases List.mem_cons.mp hy with rfl | hy
    · exact ⟨_, by simp, hr⟩
    · obtain ⟨x, hx, hxy⟩ := forall2_mem_right hf y hy
      exact ⟨x, by simp [hx], hxy⟩

theorem pairwise_of_forall2 {α β : Type} {R : α → β → Prop} {P : α → α → Prop}
    {Q : β → β → Prop}
    (hcompat : ∀ a b c d, R a c → R b d → P a b → Q c d) :
    ∀ {l : List α} {m : List β}, List.Forall₂ R l m → List.Pairwise P l →
      List.Pairwise Q m
  | _, _, List.Forall₂.nil, _ => List.Pairwise.nil
  | _, _, List.Forall₂.cons hr hf, hp => by
    rcases List.pairwise_cons.mp hp with ⟨hhead, htail⟩
    refine List.pairwise_cons.mpr ⟨?_, pairwise_of_forall2 hcompat hf htail⟩
    intro y hy
    obtain ⟨x, hx, hxy⟩ := forall2_mem_right hf y hy
    exact hcompat _ _ _ _ hr hxy (hhead x hx)

/-- C8: the list returned by `list_credentials(filter)` is sorted by site
and, within equal sites, by username (bytewise, as `ORDER BY site,
username` under the `BINARY` collation). -/
theorem claim_C8_list_credentials_sorted (r : SqliteRepo)
    (filter : Option CredentialFilter) (out : List Credential)
    (h : (r.list_credentials filter).1 = .ok out) :
    List.Pairwise (fun c d : Credential =>
      bytesLe c.site d.site = true ∧
      (c.site = d.site → bytesLe c.username d.username = true)) out := by
  unfold SqliteRepo.list_credentials at h
  simp only at h
  refine pairwise_of_forall2 ?_ (toCredList_forall2 _ out h)
    (pairwise_sortBy rowLe rowLe_total rowLe_trans _)
  intro a b c d hac hbd hab
  obtain ⟨hsa, hua⟩ := rowToCredential_site_username a c hac
  obtain ⟨hsb, hub⟩ := rowToCredential_site_username b d hbd
  unfold rowLe at hab
  by_cases hs : a.site = b.site
  · rw [if_pos hs] at hab
    constructor
    · rw [hsa, hsb, hs]
      exact bytesLe_refl _
    · intro _
      rw [hua, hub]
      exact hab
  · rw [if_neg hs] at hab
    constructor
    · rw [hsa, hsb]
      exact hab
    · intro hcd
      rw [hsa, hsb] at hcd
      exact absurd hcd hs

/-- C8 witness: a store holding sites `b.com` then `a.com` comes back in
site order with the sortedness property. -/
theorem claim_C8_list_credentials_sorted_witness :
    (SqliteRepo.list_credentials
      ⟨[⟨strB "id1", strB "b.com", strB "x", [], jsonTags [], 0, 0, none, 1, 0⟩,
        ⟨strB "id2", strB "a.com", strB "y", [], jsonTags [], 0, 0, none, 2, 0⟩],
        [], none, none⟩ none).1 =
      .ok [⟨strB "id2", strB "a.com", strB "y", [], [], 0, 0, none, 2, .Unknown⟩,
        ⟨strB "id1", strB "b.com", strB "x", [], [], 0, 0, none, 1, .Unknown⟩] ∧
    List.Pairwise (fun c d : Credential =>
      bytesLe c.site d.site = true ∧
      (c.site = d.site → bytesLe c.username d.username = true))
      [⟨strB "id2", strB "a.com", strB "y", [], [], 0, 0, none, 2, .Unknown⟩,
        ⟨strB "id1", strB "b.com", strB "x", [], [], 0, 0, none, 1, .Unknown⟩] :=
  ⟨rfl, claim_C8_list_credentials_sorted
    ⟨[⟨strB "id1", strB "b.com", strB "x", [], jsonTags [], 0, 0, none, 1, 0⟩,
      ⟨strB "id2", strB "a.com", strB "y", [], jsonTags [], 0, 0, none, 2, 0⟩],
      [], none, none⟩ none
    [⟨strB "id2", strB "a.com", strB "y", [], [], 0, 0, none, 2, .Unknown⟩,
      ⟨strB "id1", strB "b.com", strB "x", [], [], 0, 0, none, 1, .Unknown⟩] rfl⟩

/-! ## Occurrence (contiguous substring) reasoning for the tag filter -/

/-- `p` occurs contiguously inside `l`. -/
def occursAt (p l : List Nat) : Prop := ∃ a b, l = a ++ (p ++ b)

theorem occursCI_iff (needle hay : List Nat) :
    occursCI needle hay ↔ occursAt (lowerL needle) (lowerL hay) := Iff.rfl

theorem occursAt_nil (p : List Nat) (h : occursAt p []) : p = [] := by
  obtain ⟨a, b, hab⟩ := h
  rcases List.append_eq_nil.mp hab.symm with ⟨rfl, h2⟩
  rcases List.append_eq_nil.mp h2 with ⟨rfl, rfl⟩
  rfl

theorem occursAt_iff_cons (p : List Nat) (c : Nat) (l : List Nat) :
    occursAt p (c :: l) ↔ (∃ b, p ++ b = c :: l) ∨ occursAt p l := by
  constructor
  · rintro ⟨a, b, hab⟩
    cases a with
    | nil =>
      left
      exact ⟨b, hab.symm⟩
    | cons x a =>
      right
      injection hab with h1 h2
      exact ⟨a, b, h2⟩
  · rintro (⟨b, hb⟩ | ⟨a, b, hab⟩)
    · exact ⟨[], b, hb.symm⟩
    · exact ⟨c :: a, b, by rw [hab]; rfl⟩

theorem occursAt_append_left (p x m : List Nat) (h : occursAt p m) : occursAt p (x ++ m) := by
  obtain ⟨a, b, hab⟩ := h
  exact ⟨x ++ a, b, by rw [hab, List.append_assoc]⟩

/-- A quote-terminated plain run determines itself: if `y"ys…` is a prefix
of `t"ts` and neither `y` nor `t` contains a quote, the runs coincide. -/
theorem quote_prefix :
    ∀ (t y ys ts : List Nat), (∀ b ∈ y, b ≠ 34) → (∀ b ∈ t, b ≠ 34) →
      (∃ b, (y ++ 34 :: ys) ++ b = t ++ 34 :: ts) → y = t ∧ ∃ b, ys ++ b = ts
  | [], y, ys, ts, hy, _, ⟨b, hb⟩ => by
    cases y with
    | nil =>
      simp only [List.nil_append, List.cons_append] at hb
      injection hb with h1 h2
      exact ⟨rfl, b, h2⟩
    | cons c y =>
      simp only [List.cons_append, List.nil_append] at hb
      injection hb with h1 h2
      exact absurd h1 (hy c (by simp))
  | a :: t, y, ys, ts, hy, ht, ⟨b, hb⟩ => by
    cases y with
    | nil =>
      simp only [List.nil_append, List.cons_append] at hb
      injection hb with h1 h2
      exact absurd h1.symm (ht a (by simp))
    | cons c y =>
      simp only [List.cons_append] at hb
      injection hb with h1 h2
      obtain ⟨hyt, hrest⟩ := quote_prefix t y ys ts
        (fun x hx => hy x (by simp [hx])) (fun x hx => ht x (by simp [hx])) ⟨b, h2⟩
      exact ⟨by rw [h1, hyt], hrest⟩

/-- An occurrence of a quote-headed pattern beyond a quote-free run starts
at or after the separating quote. -/
theorem occursAt_quote_split :
    ∀ (t q m : List Nat), (∀ b ∈ t, b ≠ 34) → occursAt (34 :: q) (t ++ 34 :: m) →
      (∃ b, q ++ b = m) ∨ occursAt (34 :: q) m
  | [], q, m, _, h => by
    rw [List.nil_append, occursAt_iff_cons] at h
    rcases h with ⟨b, hb⟩ | h
    · left
      rw [List.cons_append] at hb
      injection hb with h1 h2
      exact ⟨b, h2⟩
    · right
      exact h
  | c :: t, q, m, ht, h => by
    rw [List.cons_append, occursAt_iff_cons] at h
    rcases h with ⟨b, hb⟩ | h
    · rw [List.cons_append] at hb
      injection hb with h1 h2
      exact absurd h1.symm (ht c (by simp))
    · exact occursAt_quote_split t q m (fun x hx => ht x (by simp [hx])) h

/-- Forward direction over the array body: a quoted occurrence of a
nonempty, quote- and comma-free `y` pins down a whole element. -/
theorem jsonTagsBody_occurs :
    ∀ (elems : List (List Nat)) (y : List Nat), y ≠ [] →
      (∀ b ∈ y, b ≠ 34 ∧ b ≠ 44) → (∀ t ∈ elems, ∀ b ∈ t, b ≠ 34) →
      occursAt (34 :: (y ++ [34])) (jsonTagsBody elems ++ [93]) → y ∈ elems
  | [], y, _, _, _, h => by
    rw [jsonTagsBody, List.nil_append] at h
    rcases (occursAt_iff_cons _ _ _).mp h with ⟨b, hb⟩ | h
    · rw [List.cons_append] at hb
      injection hb with h1 h2
      exact absurd h1 (by decide)
    · exact absurd (occursAt_nil _ h) (List.cons_ne_nil _ _)
  | t :: rest, y, hynil, hy, helems, h => by
    have ht : ∀ b ∈ t, b ≠ 34 := helems t (by simp)
    have hshape : jsonTagsBody (t :: rest) ++ [93] =
        34 :: (t ++ 34 ::
          (if rest.isEmpty then [93] else 44 :: (jsonTagsBody rest ++ [93]))) := by
      cases rest with
      | nil => simp [jsonTagsBody]
      | cons r rs => simp [jsonTagsBody]
    rw [hshape] at h
    rcases (occursAt_iff_cons _ _ _).mp h with ⟨b, hb⟩ | h
    · rw [List.cons_append] at hb
      injection hb with h1 h2
      obtain ⟨hyt, _⟩ := quote_prefix t y [] _ (fun x hx => (hy x hx).1) ht ⟨b, h2⟩
      rw [hyt]
      simp
    · rcases occursAt_quote_split t _ _ ht h with ⟨b, hb⟩ | h2
      · cases hrest : rest.isEmpty with
        | true =>
          rw [hrest, if_pos rfl] at hb
          have hlen := congrArg List.length hb
          simp only [List.length_append, List.length_cons, List.length_nil] at hlen
          have hy0 : y.length = 0 := by omega
          rw [List.length_eq_zero] at hy0
          exact absurd hy0 hynil
        | false =>
          rw [hrest] at hb
          simp only [Bool.false_eq_true, if_false] at hb
          cases y with
          | nil => exact absurd rfl hynil
          | cons c y =>
            simp only [List.cons_append, List.append_assoc] at hb
            injection hb with h1 h2
            exact absurd h1 ((hy c (by simp)).2)
      · cases hrest : rest.isEmpty with
        | true =>
          rw [hrest, if_pos rfl] at h2
          rcases (occursAt_iff_cons _ _ _).mp h2 with ⟨b, hb⟩ | h3
          · rw [List.cons_append] at hb
            injection hb with h1 _
            exact absurd h1 (by decide)
          · exact absurd (occursAt_nil _ h3) (List.cons_ne_nil _ _)
        | false =>
          rw [hrest] at h2
          simp only [Bool.false_eq_true, if_false] at h2
          rcases (occursAt_iff_cons _ _ _).mp h2 with ⟨b, hb⟩ | h3
          · rw [List.cons_append] at hb
            injection hb with h1 _
            exact absurd h1 (by decide)
          · have hmem := jsonTagsBody_occurs rest y hynil hy
              (fun u hu x hx => helems u (by simp [List.mem_cons] at hu ⊢; tauto) x hx) h3
            simp [hmem]

/-- Backward direction: every element occurs quoted in the body. -/
theorem jsonTagsBody_occurs_of_mem :
    ∀ (elems : List (List Nat)) (y : List Nat), y ∈ elems →
      occursAt (34 :: (y ++ [34])) (jsonTagsBody elems ++ [93])
  | [], y, h => by simp at h
  | t :: rest, y, h => by
    rcases List.mem_cons.mp h with rfl | h
    · cases rest with
      | nil =>
        refine ⟨[], [93], ?_⟩
        simp [jsonTagsBody]
      | cons r rs =>
        refine ⟨[], 44 :: (jsonTagsBody (r :: rs) ++ [93]), ?_⟩
        simp [jsonTagsBody]
    · have ih := jsonTagsBody_occurs_of_mem rest y h
      cases rest with
      | nil => simp at h
      | cons r rs =>
        have hshape : jsonTagsBody (t :: r :: rs) ++ [93] =
            (34 :: t ++ [34, 44]) ++ (jsonTagsBody (r :: rs) ++ [93]) := by
          simp [jsonTagsBody]
        rw [hshape]
        exact occursAt_append_left _ _ _ ih

/-- The quoted-occurrence test on the array text is exactly membership, for
a nonempty quote- and comma-free needle and quote-free elements. -/
theorem quoted_occurs_iff (y : List Nat) (hynil : y ≠ [])
    (hy : ∀ b ∈ y, b ≠ 34 ∧ b ≠ 44) (elems : List (List Nat))
    (helems : ∀ t ∈ elems, ∀ b ∈ t, b ≠ 34) :
    occursAt (34 :: (y ++ [34])) (jsonTags elems) ↔ y ∈ elems := by
  constructor
  · intro h
    rw [jsonTags] at h
    rcases (occursAt_iff_cons _ _ _).mp h with ⟨b, hb⟩ | h
    · rw [List.cons_append] at hb
      injection hb with h1 _
      exact absurd h1 (by decide)
    · exact jsonTagsBody_occurs elems y hynil hy helems h
  · intro h
    obtain ⟨a, b, hab⟩ := jsonTagsBody_occurs_of_mem elems y h
    exact ⟨91 :: a, b, by rw [jsonTags, List.cons_append, hab]; rfl⟩

/-! ## Filter semantics (C7)

The spec-side filter predicate and the corrected (amended) one, compared
with the WHERE clause `rowMatches` actually built by
`SqliteRepository::list_credentials`. -/

/-- The claim's filter predicate, written from the spec's words: the search
term matches as a case-insensitive substring of the site OR the username
(and of nothing else); the tag matches by exact membership in the tag set;
`min_strength` is an inclusive lower bound; `breach_state` an exact match;
an absent field imposes no constraint. -/
def specMatchesFilter (f : CredentialFilter) (c : Credential) : Prop :=
  (match f.search_term with
   | none => True
   | some term => occursCI term c.site ∨ occursCI term c.username) ∧
  (match f.tag with
   | none => True
   | some tag => tag ∈ c.tags) ∧
  (match f.min_strength with
   | none => True
   | some s => s ≤ c.strength) ∧
  (match f.breach_state with
   | none => True
   | some b => c.breach_state = b)

/-- The amended filter predicate matching the code: the search term also
matches against the serialized tag-list text, and the tag filter matches by
case-insensitive membership in the tag set. -/
def amendedMatchesFilter (f : CredentialFilter) (c : Credential) : Prop :=
  (match f.search_term with
   | none => True
   | some term =>
     occursCI term c.site ∨ occursCI term c.username ∨
       occursCI term (jsonTags c.tags)) ∧
  (match f.tag with
   | none => True
   | some tag => ∃ t ∈ c.tags, lowerL t = lowerL tag) ∧
  (match f.min_strength with
   | none => True
   | some s => s ≤ c.strength) ∧
  (match f.breach_state with
   | none => True
   | some b => c.breach_state = b)

theorem lowerByte_ne_34 (x : Nat) (hx : x ≠ 34) : lowerByte x ≠ 34 := by
  unfold lowerByte
  split <;> omega

theorem lowerByte_ne_44 (x : Nat) (hx : x ≠ 44) : lowerByte x ≠ 44 := by
  unfold lowerByte
  split <;> omega

theorem lowerL_nil : lowerL [] = [] := rfl

theorem lowerL_cons (a : Nat) (l : List Nat) :
    lowerL (a :: l) = lowerByte a :: lowerL l := rfl

theorem lowerL_append (a b : List Nat) : lowerL (a ++ b) = lowerL a ++ lowerL b := by
  simp [lowerL]

theorem lowerL_jsonTagsBody :
    ∀ ts, lowerL (jsonTagsBody ts) = jsonTagsBody (ts.map lowerL)
  | [] => rfl
  | [t] => by
    simp only [jsonTagsBody, List.map_cons, List.map_nil, lowerL_append, lowerL_cons,
      lowerL_nil]
    rfl
  | t :: t2 :: ts => by
    have ih := lowerL_jsonTagsBody (t2 :: ts)
    simp only [jsonTagsBody, List.map_cons, lowerL_append, lowerL_cons, lowerL_nil] at ih ⊢
    rw [ih]
    rfl

theorem lowerL_jsonTags (ts : List (List Nat)) :
    lowerL (jsonTags ts) = jsonTags (ts.map lowerL) := by
  rw [jsonTags, List.cons_append, lowerL_cons, lowerL_append, lowerL_jsonTagsBody]
  rfl

theorem breach_ofInt_eq (n : Nat) (hn : n < 3) (b : BreachState) :
    ((n == b.toInt) = true) ↔ BreachState.ofInt n = b := by
  interval_cases n <;> cases b <;> decide

/-- The search clause of the WHERE expression, characterized: case-insensitive
substring of site, username, or the serialized tag text. -/
theorem search_clause_iff (term : List Nat) (hterm : ∀ x ∈ term, x ≠ 37 ∧ x ≠ 95)
    (row : ItemRow) (ts : List (List Nat)) (hts : row.tags_json = jsonTags ts) :
    ((likeMatch (37 :: (term ++ [37])) row.site ||
      likeMatch (37 :: (term ++ [37])) row.username ||
      likeMatch (37 :: (term ++ [37])) row.tags_json) = true) ↔
    (occursCI term row.site ∨ occursCI term row.username ∨
      occursCI term (jsonTags ts)) := by
  simp only [Bool.or_eq_true, likeMatch_contains term hterm, hts, or_assoc]

/-- The tag clause of the WHERE expression, characterized: for a nonempty
tag free of wildcards, quotes and commas, over the canonical serialization
of quote-free tags, `JSON_ARRAY_LENGTH(tags) > 0 AND tags LIKE '%"tag"%'`
holds exactly on case-insensitive membership. -/
theorem tag_clause_iff (tag : List Nat) (htne : tag ≠ [])
    (htagb : ∀ x ∈ tag, x ≠ 37 ∧ x ≠ 95 ∧ x ≠ 34 ∧ x ≠ 44)
    (row : ItemRow) (ts : List (List Nat)) (hts : row.tags_json = jsonTags ts)
    (hq : ∀ t ∈ ts, ∀ x ∈ t, x ≠ 34) :
    (((match parseTags row.tags_json with
       | some ts2 => !ts2.isEmpty
       | none => false) &&
      likeMatch (37 :: 34 :: (tag ++ [34, 37])) row.tags_json) = true) ↔
    ∃ t ∈ ts, lowerL t = lowerL tag := by
  have hred : (match parseTags row.tags_json with
      | some ts2 => !ts2.isEmpty
      | none => false) = !ts.isEmpty := by
    rw [hts, parseTags_jsonTags ts hq]
  have hpat : (37 :: 34 :: (tag ++ [34, 37])) = 37 :: ((34 :: (tag ++ [34])) ++ [37]) := by
    simp
  have hp : ∀ x ∈ (34 :: (tag ++ [34])), x ≠ 37 ∧ x ≠ 95 := by
    intro x hx
    rcases List.mem_cons.mp hx with rfl | hx
    · exact ⟨by decide, by decide⟩
    · rcases List.mem_append.mp hx with hx | hx
      · exact ⟨(htagb x hx).1, (htagb x hx).2.1⟩
      · simp only [List.mem_singleton] at hx
        subst hx
        exact ⟨by decide, by decide⟩
  rw [hred, hpat, Bool.and_eq_true, likeMatch_contains _ hp, hts, occursCI_iff]
  have hlp : lowerL (34 :: (tag ++ [34])) = 34 :: (lowerL tag ++ [34]) := by
    rw [lowerL_cons, lowerL_append]
    rfl
  rw [hlp, lowerL_jsonTags]
  have hyne : lowerL tag ≠ [] := by
    intro h
    rw [lowerL, List.map_eq_nil] at h
    exact htne h
  have hyb : ∀ b ∈ lowerL tag, b ≠ 34 ∧ b ≠ 44 := by
    intro b hb
    rw [lowerL, List.mem_map] at hb
    obtain ⟨x, hx, rfl⟩ := hb
    exact ⟨lowerByte_ne_34 x (htagb x hx).2.2.1, lowerByte_ne_44 x (htagb x hx).2.2.2⟩
  have helems : ∀ t ∈ ts.map lowerL, ∀ b ∈ t, b ≠ 34 := by
    intro t ht b hb
    rw [List.mem_map] at ht
    obtain ⟨u, hu, rfl⟩ := ht
    rw [lowerL, List.mem_map] at hb
    obtain ⟨x, hx, rfl⟩ := hb
    exact lowerByte_ne_34 x (hq u hu x hx)
  rw [quoted_occurs_iff (lowerL tag) hyne hyb (ts.map lowerL) helems]
  constructor
  · rintro ⟨h1, h2⟩
    rw [List.mem_map] at h2
    exact h2
  · rintro ⟨t, ht, h3⟩
    refine ⟨?_, List.mem_map.mpr ⟨t, ht, h3⟩⟩
    cases ts with
    | nil => simp at ht
    | cons a l => simp [List.isEmpty]

/-- The WHERE clause of `list_credentials` agrees with the amended filter
predicate on the converted credential, row by row. -/
theorem rowMatches_amended (f : CredentialFilter) (row : ItemRow)
    (ts : List (List Nat)) (c : Credential)
    (hterm : ∀ term, f.search_term = some term → ∀ x ∈ term, x ≠ 37 ∧ x ≠ 95)
    (htag : ∀ tag, f.tag = some tag →
      tag ≠ [] ∧ ∀ x ∈ tag, x ≠ 37 ∧ x ≠ 95 ∧ x ≠ 34 ∧ x ≠ 44)
    (hts : row.tags_json = jsonTags ts)
    (hq : ∀ t ∈ ts, ∀ x ∈ t, x ≠ 34)
    (hbs : row.breach_state < 3)
    (hc : rowToCredential row = .ok c) :
    (SqliteRepo.rowMatches f row = true ↔ amendedMatchesFilter f c) := by
  have hcrec : c = ⟨row.uuid, row.site, row.username, row.secret_enc, ts,
      row.created_at, row.updated_at, row.expires_at, row.strength,
      BreachState.ofInt row.breach_state⟩ := by
    unfold rowToCredential at hc
    rw [hts, parseTags_jsonTags ts hq] at hc
    injection hc with hc
    exact hc.symm
  subst hcrec
  obtain ⟨st, tg, ms, bs⟩ := f
  unfold SqliteRepo.rowMatches amendedMatchesFilter
  dsimp only
  simp only [Bool.and_eq_true]
  rw [and_assoc, and_assoc]
  refine and_congr ?_ (and_congr ?_ (and_congr ?_ ?_))
  · cases st with
    | none => simp
    | some term => exact search_clause_iff term (hterm term rfl) row ts hts
  · cases tg with
    | none => simp
    | some tag =>
      exact tag_clause_iff tag (htag tag rfl).1 (fun x hx => (htag tag rfl).2 x hx)
        row ts hts hq
  · cases ms with
    | none => simp
    | some s => simp
  · cases bs with
    | none => simp
    | some b => exact breach_ofInt_eq row.breach_state hbs b

theorem forall2_mem_left {α β : Type} {R : α → β → Prop} :
    ∀ {l : List α} {m : List β}, List.Forall₂ R l m → ∀ x ∈ l, ∃ y ∈ m, R x y
  | _, _, List.Forall₂.nil => by
    intro x hx
    simp at hx
  | _, _, List.Forall₂.cons hr hf => by
    intro x hx
    rcases List.mem_cons.mp hx with rfl | hx
    · exact ⟨_, by simp, hr⟩
    · obtain ⟨y, hy, hxy⟩ := forall2_mem_left hf x hx
      exact ⟨y, by simp [hy], hxy⟩

/-- C7 (amended): for a search term free of `LIKE` wildcards, a tag filter
that is nonempty and free of wildcards, quotes and commas, and rows whose
tag text is the canonical serialization of escape-free tags (every byte
≥ 32 and neither `"` nor backslash, so `serde_json` writes them verbatim)
with a stored breach integer, a credential is returned by
`list_credentials (some f)` iff
it is the conversion of a stored row and satisfies every field present in
the filter — where the search term matches as a case-insensitive substring
of the site OR the username OR the serialized tag-list text, the tag
filter matches by case-insensitive membership in the tag set,
`min_strength` is an inclusive lower bound, `breach_state` an exact match,
and an absent field imposes no constraint. -/
theorem claim_C7_filter_semantics (r : SqliteRepo) (f : CredentialFilter)
    (out : List Credential) (c : Credential)
    (hterm : ∀ term, f.search_term = some term → ∀ x ∈ term, x ≠ 37 ∧ x ≠ 95)
    (htag : ∀ tag, f.tag = some tag →
      tag ≠ [] ∧ ∀ x ∈ tag, x ≠ 37 ∧ x ≠ 95 ∧ x ≠ 34 ∧ x ≠ 44)
    (hwf : ∀ row ∈ r.vault_items,
      ∃ ts, row.tags_json = jsonTags ts ∧ ∀ t ∈ ts, ∀ x ∈ t, 32 ≤ x ∧ x ≠ 34 ∧ x ≠ 92)
    (hbs : ∀ row ∈ r.vault_items, row.breach_state < 3)
    (hout : (r.list_credentials (some f)).1 = .ok out) :
    c ∈ out ↔ ∃ row ∈ r.vault_items,
      rowToCredential row = .ok c ∧ amendedMatchesFilter f c := by
  unfold SqliteRepo.list_credentials at hout
  dsimp only at hout
  have hf2 := toCredList_forall2 _ out hout
  constructor
  · intro hcm
    obtain ⟨row, hrow, hrc⟩ := forall2_mem_right hf2 c hcm
    have hrow2 := (mem_sortBy rowLe _ row).mp hrow
    obtain ⟨hmem, hcond⟩ := List.mem_filter.mp hrow2
    obtain ⟨ts, hts, hq2⟩ := hwf row hmem
    have hq : ∀ t ∈ ts, ∀ x ∈ t, x ≠ 34 := fun t ht x hx => (hq2 t ht x hx).2.1
    exact ⟨row, hmem, hrc,
      (rowMatches_amended f row ts c hterm htag hts hq (hbs row hmem) hrc).mp hcond⟩
  · rintro ⟨row, hmem, hrc, hamended⟩
    obtain ⟨ts, hts, hq2⟩ := hwf row hmem
    have hq : ∀ t ∈ ts, ∀ x ∈ t, x ≠ 34 := fun t ht x hx => (hq2 t ht x hx).2.1
    have hcond : SqliteRepo.rowMatches f row = true :=
      (rowMatches_amended f row ts c hterm htag hts hq (hbs row hmem) hrc).mpr hamended
    have hrow2 := (mem_sortBy rowLe _ row).mpr (List.mem_filter.mpr ⟨hmem, hcond⟩)
    obtain ⟨c2, hc2, hrc2⟩ := forall2_mem_left hf2 row hrow2
    rw [hrc] at hrc2
    injection hrc2 with hcc
    rw [hcc]
    exact hc2

/-- C7, counterexample to the frozen wording, in two parts. Search scope:
a stored credential tagged "bank" whose site "ex.com" and username "u" do
not contain the term is still returned by the search "bank", because the
built WHERE clause also runs `tags LIKE '%term%'` — the search term does
not match "the site OR the username" and nothing else. Tag matching: a
credential whose only tag is "Bank" is returned by the tag filter "bank",
because SQLite's `LIKE` compares ASCII case-insensitively — so the tag
filter is not "exact membership in the credential's tag set". -/
theorem claim_C7_search_scope_counterexample :
    ((SqliteRepo.list_credentials
        ⟨[⟨strB "id", strB "ex.com", strB "u", [], jsonTags [strB "bank"],
          0, 0, none, 50, 0⟩], [], none, none⟩
        (some ⟨some (strB "bank"), none, none, none⟩)).1 =
      .ok [⟨strB "id", strB "ex.com", strB "u", [], [strB "bank"],
        0, 0, none, 50, .Unknown⟩] ∧
      ¬ specMatchesFilter ⟨some (strB "bank"), none, none, none⟩
        ⟨strB "id", strB "ex.com", strB "u", [], [strB "bank"],
          0, 0, none, 50, .Unknown⟩) ∧
    ((SqliteRepo.list_credentials
        ⟨[⟨strB "id", strB "ex.com", strB "u", [], jsonTags [strB "Bank"],
          0, 0, none, 50, 0⟩], [], none, none⟩
        (some ⟨none, some (strB "bank"), none, none⟩)).1 =
      .ok [⟨strB "id", strB "ex.com", strB "u", [], [strB "Bank"],
        0, 0, none, 50, .Unknown⟩] ∧
      ¬ specMatchesFilter ⟨none, some (strB "bank"), none, none⟩
        ⟨strB "id", strB "ex.com", strB "u", [], [strB "Bank"],
          0, 0, none, 50, .Unknown⟩) := by
  refine ⟨⟨rfl, ?_⟩, ⟨rfl, ?_⟩⟩
  · intro hspec
    obtain ⟨h1, -⟩ := hspec
    rcases h1 with h | h
    · have := (likeMatch_contains (strB "bank") (by decide) (strB "ex.com")).mpr h
      exact absurd this (by decide)
    · have := (likeMatch_contains (strB "bank") (by decide) (strB "u")).mpr h
      exact absurd this (by decide)
  · intro hspec
    obtain ⟨-, h2, -⟩ := hspec
    exact absurd h2 (by decide)

/-- C7 witness: one stored row tagged `bank`, filtered by
`tag = "bank"`, `min_strength = 10`, `breach_state = Unknown`. -/
theorem claim_C7_filter_semantics_witness :
    ((SqliteRepo.list_credentials
      ⟨[⟨strB "id", strB "ex.com", strB "u", [], jsonTags [strB "bank"],
        0, 0, none, 50, 0⟩], [], none, none⟩
      (some ⟨none, some (strB "bank"), some 10, some .Unknown⟩)).1 =
      .ok [⟨strB "id", strB "ex.com", strB "u", [], [strB "bank"],
        0, 0, none, 50, .Unknown⟩]) ∧
    ((⟨strB "id", strB "ex.com", strB "u", [], [strB "bank"],
        0, 0, none, 50, .Unknown⟩ : Credential) ∈
      [(⟨strB "id", strB "ex.com", strB "u", [], [strB "bank"],
        0, 0, none, 50, .Unknown⟩ : Credential)] ↔
      ∃ row ∈ [(⟨strB "id", strB "ex.com", strB "u", [], jsonTags [strB "bank"],
        0, 0, none, 50, 0⟩ : ItemRow)],
        rowToCredential row =
          .ok ⟨strB "id", strB "ex.com", strB "u", [], [strB "bank"],
            0, 0, none, 50, .Unknown⟩ ∧
        amendedMatchesFilter ⟨none, some (strB "bank"), some 10, some .Unknown⟩
          ⟨strB "id", strB "ex.com", strB "u", [], [strB "bank"],
            0, 0, none, 50, .Unknown⟩) :=
  ⟨rfl,
    claim_C7_filter_semantics
      ⟨[⟨strB "id", strB "ex.com", strB "u", [], jsonTags [strB "bank"],
        0, 0, none, 50, 0⟩], [], none, none⟩
      ⟨none, some (strB "bank"), some 10, some .Unknown⟩
      [⟨strB "id", strB "ex.com", strB "u", [], [strB "bank"],
        0, 0, none, 50, .Unknown⟩]
      ⟨strB "id", strB "ex.com", strB "u", [], [strB "bank"],
        0, 0, none, 50, .Unknown⟩
      (by intro term h; simp at h)
      (by
        intro tag h
        simp only [Option.some.injEq] at h
        subst h
        exact ⟨by decide, by decide⟩)
      (by
        intro row hrow
        simp only [List.mem_singleton] at hrow
        subst hrow
        refine ⟨[strB "bank"], rfl, ?_⟩
        decide)
      (by
        intro row hrow
        simp only [List.mem_singleton] at hrow
        subst hrow
        decide)
      rfl⟩

end SecretPlan
